import Mathlib

/-!
Verification of the SnipSolve document retrieval-and-grounding pipeline.

This file shallowly embeds the core of `src/main/main.ts` in Lean 4:
the keyword search engine (`searchDocuments`), the prompt builder
(`buildSystemPrompt`), the response validator (`validateAIResponse`), the
document-deletion handler, and the capture-solve / chat-followup
orchestration, and proves the specified properties about them.

Modelling conventions:
* JavaScript strings are Lean `String`s; all inputs of interest are ASCII,
  and the JS string primitives used by the source (`toLowerCase`, `trim`,
  `split(/\s+/)`, `includes`) are modelled character-exactly for ASCII by
  the `js...` functions below.
* The external oracles (OCR, the chat-completion model) are modelled by
  `Except String String` outcome parameters: the outcome of the single
  `await`ed call at the corresponding call site.  Each orchestration
  function also returns the list of oracle calls it performed, so that
  "each call is attempted once, no retry" is a provable statement.
* Fallible code (`throw` / rejected promises caught by `try/catch`)
  becomes `Except String`.
-/

deriving instance DecidableEq for Except

namespace SnipSolve

/-! ## JavaScript string primitives -/

/-- JS `\w` character class: `[A-Za-z0-9_]`.  `Char.isAlpha` / `Char.isDigit`
are the corresponding ASCII predicates. -/
def isWordChar (c : Char) : Bool := c.isAlpha || c.isDigit || c == '_'

/-- JS `String.prototype.toLowerCase`, exact on ASCII text
(`Char.toLower` lowers exactly the ASCII letters). -/
def jsToLowerCase (s : String) : String := ⟨s.data.map Char.toLower⟩

/-- JS `String.prototype.trim`: strip leading and trailing whitespace. -/
def jsTrim (s : String) : String :=
  ⟨((s.data.dropWhile Char.isWhitespace).reverse.dropWhile Char.isWhitespace).reverse⟩

/-- JS `String.prototype.includes`: substring containment. -/
def jsIncludes (s pat : String) : Bool :=
  (List.range (s.data.length + 1)).any (fun i => pat.data.isPrefixOf (s.data.drop i))

/-- Maximal runs of `p`-characters of a character list, in order, with the
separating non-`p` characters dropped.  Fuel-indexed so that the definition
is structurally recursive (any `fuel ≥ length` gives the same value, see
`runsByFuel_fuel_irrel`). -/
def runsByFuel (p : Char → Bool) : Nat → List Char → List (List Char)
  | 0, _ => []
  | _ + 1, [] => []
  | fuel + 1, c :: rest =>
    if p c then ((c :: rest).takeWhile p) :: runsByFuel p fuel ((c :: rest).dropWhile p)
    else runsByFuel p fuel rest

/-- Maximal runs of `p`-characters of a character list. -/
def runsBy (p : Char → Bool) (s : List Char) : List (List Char) := runsByFuel p s.length s

/-- The "words" of a text: its maximal runs of `\w` characters.  This is how
the words of a chunk are delimited from the point of view of the search
regex `/\b<token>\w*/g`. -/
def textWords (s : List Char) : List (List Char) := runsBy isWordChar s

/-! ## The search regex

For each query token `word` the source executes
`chunkText.match(new RegExp('\\b' + word + '\\w*', 'gi')).length`
on the already-lowercased chunk text (`word` is itself lowercased, so the
`i` flag is inert on ASCII input).  The interpolated token is compiled to
a sequence of fixed-width atoms (`compileToken`): ordinary characters —
letters, digits, `_`, and literal punctuation such as the apostrophe or
the hyphen — match themselves, `.` matches any character but a line
terminator, and the characters that are special in a JS pattern are
modelled as a thrown `SyntaxError` (see `compileTokenChar` for the exact
scope of that approximation).

`regexScanFuel` models the global-flag scan of `/\b<atoms>\w*/g`
literally: the engine tries each position left to right; the pattern
matches at a position iff `\b` holds there — the word-character-ness of
the previous character (tracked in `prevW`) differs from that of the
current one — and the atoms match the next characters one-for-one; on a
match `\w*` greedily consumes the following word characters, scanning
resumes after the match with `prevW` set from the last consumed
character, and otherwise scanning advances one character.  The functions
are fuel-indexed so that they are structurally recursive; any
`fuel ≥ length` gives the same value. -/

/-- One compiled atom of the token part of the pattern: a literal
character, or the `.` metacharacter. -/
inductive RegexAtom
  | lit (c : Char)
  | dot

deriving Repr, DecidableEq

/-- Whether one atom matches one character: a literal matches exactly
itself (token and chunk text are both lowercased, so the `i` flag is inert
on ASCII input); `.` matches any character except a line terminator. -/
def atomMatches : RegexAtom → Char → Bool
  | RegexAtom.lit a, c => a == c
  | RegexAtom.dot, c => !(c == '\n' || c == '\r' || c == '\u2028' || c == '\u2029')

/-- The fixed-width atom sequence matches at the head of `s`,
consuming one character per atom. -/
def atomsMatch : List RegexAtom → List Char → Bool
  | [], _ => true
  | _ :: _, [] => false
  | a :: as, c :: cs => atomMatches a c && atomsMatch as cs

/-- Compile one character of the interpolated token.  A character that is
special in a JS pattern (`^ $ \ * + ? ( ) [ ] { } |`) is mapped to
`none`: the model treats the token as a thrown `SyntaxError`.  That is
exact for tokens such as `"(see"` (unbalanced group) or `"c++"` (nothing
to repeat), and over-approximates the error for the remaining uses of
those characters (e.g. `"ab+"` compiles in JS as a quantifier and `"a|b"`
as an alternation), whose semantics are outside this model's scope — no
claim below concerns them.  `.` compiles to the any-character atom and
every other character is a literal, exactly as in JS. -/
def compileTokenChar (c : Char) : Option RegexAtom :=
  if c ∈ ['^', '$', '\\', '*', '+', '?', '(', ')', '[', ']', '{', '}', '|'] then none
  else if c == '.' then some RegexAtom.dot
  else some (RegexAtom.lit c)

/-- `new RegExp('\\b' + word + '\\w*', 'gi')`: compile the interpolated
token character by character; `none` models the thrown `SyntaxError`. -/
def compileToken : List Char → Option (List RegexAtom)
  | [] => some []
  | c :: cs =>
    match compileTokenChar c, compileToken cs with
    | some a, some as => some (a :: as)
    | _, _ => none

/-- Tokens made of `\w` characters only: for these the compiled pattern is
all literals and the score is a prefix-word count (claim C3). -/
def wordCharToken (word : String) : Bool :=
  !word.data.isEmpty && word.data.all isWordChar

/-- The error surfaced when `new RegExp` throws on an interpolated token. -/
def regexSyntaxError : String := "Invalid regular expression"

def regexScanFuel (a0 : RegexAtom) (arest : List RegexAtom) : Nat → List Char → Bool → Nat
  | 0, _, _ => 0
  | _ + 1, [], _ => 0
  | fuel + 1, c :: rest, prevW =>
    if (prevW != isWordChar c) && atomsMatch (a0 :: arest) (c :: rest) then
      1 + regexScanFuel a0 arest fuel
            (((c :: rest).drop (arest.length + 1)).dropWhile isWordChar)
            (if (((c :: rest).drop (arest.length + 1)).takeWhile isWordChar).isEmpty then
               isWordChar (((c :: rest).drop arest.length).headD c)
             else true)
    else
      regexScanFuel a0 arest fuel rest (isWordChar c)

/-- State of the scan of `/\b<a0 :: arest>\w*/g` over `s`, where `prevW`
says whether the character preceding `s` is a `\w` character. -/
def regexScan (a0 : RegexAtom) (arest : List RegexAtom) (s : List Char) (prevW : Bool) : Nat :=
  regexScanFuel a0 arest s.length s prevW

/-- Number of matches of the compiled `/\b<atoms>\w*/g` in `text`
(i.e. `text.match(regex).length`, with `null` counted as `0`).
The `atoms = []` case cannot arise: query tokens have length `> 2`. -/
def regexMatchCount (atoms : List RegexAtom) (text : List Char) : Nat :=
  match atoms with
  | [] => 0
  | a0 :: arest => regexScan a0 arest text false

/-- The scan of `/\b<t0 :: trest>\w*/g` specialized to an all-word-character
token: there `\b` holds iff the previous character is not a word character
(the token's first character is one), and after a match `\w*` always leaves
the scan just past a word character.  `regexScanFuel_lit_eq` proves this
equal to the general scan on such tokens; it is the form against which the
prefix-word-count characterization (claim C3) is proved. -/
def litScanFuel (t0 : Char) (trest : List Char) : Nat → List Char → Bool → Nat
  | 0, _, _ => 0
  | _ + 1, [], _ => 0
  | fuel + 1, c :: rest, prevW =>
    if !prevW && (t0 :: trest).isPrefixOf (c :: rest) then
      1 + litScanFuel t0 trest fuel
            (((c :: rest).drop (trest.length + 1)).dropWhile isWordChar) true
    else
      litScanFuel t0 trest fuel rest (isWordChar c)

def litScan (t0 : Char) (trest s : List Char) (prevW : Bool) : Nat :=
  litScanFuel t0 trest s.length s prevW

/-! ## Data model of the Document Store and search results

`main.ts` keeps a module-level
`documentChunks: Map<string, {docId, docName, chunkIndex, text}[]>`.
A JS `Map` iterates its entries in insertion order, so the store is
modelled as an association list with (for reachable states) distinct keys.
`chunkIndex` is assigned from `Array.prototype.map`'s index on upload,
hence a natural number. -/

structure Chunk where
  docId : String
  docName : String
  chunkIndex : Nat
  text : String

deriving Repr, DecidableEq

abbrev DocStore := List (String × List Chunk)

/-- The `{docName, text, score}` objects returned by `searchDocuments`.
The score is a sum of match counts, hence a natural number. -/
structure SearchResult where
  docName : String
  text : String
  score : Nat

deriving Repr, DecidableEq

/-- Entries of the internal `matchingChunks` array of `searchDocuments`. -/
structure MatchingChunk where
  docId : String
  docName : String
  chunkIndex : Nat
  text : String
  score : Nat

deriving Repr, DecidableEq

/-! ## The search engine (`searchDocuments`, main.ts lines 533-610) -/

/-- `query.toLowerCase().split(/\s+/).filter(w => w.length > 2)`.
Splitting on `/\s+/` yields the maximal non-whitespace runs (plus possibly
one leading empty string, which the length filter discards either way). -/
def queryTokens (query : String) : List String :=
  ((runsBy (fun c => !c.isWhitespace) (jsToLowerCase query).data).map
      (fun l => (⟨l⟩ : String))).filter (fun w => 2 < w.length)

/-- The inner scoring loop: for each query token build
`new RegExp('\\b' + word + '\\w*', 'gi')` — which may throw — and add the
number of matches in the lowercased chunk text. -/
def scoreChunk (queryWords : List String) (chunk : Chunk) : Except String Nat :=
  queryWords.foldlM
    (fun score word =>
      match compileToken word.data with
      | none => Except.error regexSyntaxError
      | some atoms =>
        Except.ok (score + regexMatchCount atoms (jsToLowerCase chunk.text).data))
    0

/-- One step of the chunk loop: score the chunk and push it onto
`matchingChunks` when the score is positive. -/
def matchStep (queryWords : List String) (docId : String)
    (acc : List MatchingChunk) (chunk : Chunk) : Except String (List MatchingChunk) := do
  let score ← scoreChunk queryWords chunk
  if score > 0 then
    pure (acc ++ [⟨docId, chunk.docName, chunk.chunkIndex, chunk.text, score⟩])
  else
    pure acc

/-- The double loop over `documentChunks.entries()` pushing every chunk
with a positive score, in store order. -/
def collectMatches (store : DocStore) (queryWords : List String) :
    Except String (List MatchingChunk) :=
  store.foldlM (fun acc entry => entry.2.foldlM (matchStep queryWords entry.1) acc) []

/-- Stable insertion of `a` into a score-descending list: `a` goes before
the first strictly smaller score, i.e. after earlier equal scores. -/
def insertScoreDesc {α : Type} (score : α → Nat) (a : α) : List α → List α
  | [] => [a]
  | b :: l => if score a < score b then b :: insertScoreDesc score a l else a :: b :: l

/-- `arr.sort((a, b) => b.score - a.score)`: a stable descending sort
(`Array.prototype.sort` is stable per ES2019); stable insertion sort
produces the identical list. -/
def sortScoreDesc {α : Type} (score : α → Nat) : List α → List α
  | [] => []
  | a :: l => insertScoreDesc score a (sortScoreDesc score l)

/-- `documentChunks.get(docId)`: first entry with the given key. -/
def storeLookup (store : DocStore) (docId : String) : Option (List Chunk) :=
  (store.find? (fun e => e.1 == docId)).map Prod.snd

/-- The integers from `lo` to `hi` inclusive (`for (let i = lo; i <= hi; i++)`). -/
def intRange (lo hi : Int) : List Int :=
  (List.range (hi + 1 - lo).toNat).map (fun (k : Nat) => lo + (k : Int))

/-- Neighbor expansion of one selected seed match (main.ts lines 579-604):
combine the chunks with indices `max(0, i-1) .. min(len-1, i+1)` of the
seed's document into one newline-joined result, keyed by
`` `${docId}-${startIdx}-${endIdx}` `` for deduplication.  Returns `none`
when the seed's document is no longer in the store (`if (!docChunks) continue`). -/
def expandMatch (store : DocStore) (m : MatchingChunk) : Option (String × SearchResult) :=
  match storeLookup store m.docId with
  | none => none
  | some docChunks =>
    let startIdx : Int := max 0 ((m.chunkIndex : Int) - 1)
    let endIdx : Int := min ((docChunks.length : Int) - 1) ((m.chunkIndex : Int) + 1)
    let combinedText := (intRange startIdx endIdx).filterMap
      (fun i => (docChunks.find? (fun c => (c.chunkIndex : Int) == i)).map Chunk.text)
    some (m.docId ++ "-" ++ toString startIdx ++ "-" ++ toString endIdx,
      ⟨m.docName, String.intercalate "\n" combinedText, m.score⟩)

/-- One step of the dedup loop: `if (!expandedResults.has(key)) set(key, value)`. -/
def dedupStep (acc : List (String × SearchResult)) (kv : String × SearchResult) :
    List (String × SearchResult) :=
  if acc.any (fun p => p.1 == kv.1) then acc else acc ++ [kv]

/-- The `expandedResults` JS `Map`: first insertion per key wins, values
iterate in insertion order. -/
def dedupByKey (entries : List (String × SearchResult)) : List (String × SearchResult) :=
  entries.foldl dedupStep []

/-- Seed selection: sort all matches by score descending, take the top
`min(topK, matchCount)`. -/
def searchSeeds (store : DocStore) (queryWords : List String) (topK : Nat) :
    Except String (List MatchingChunk) :=
  match collectMatches store queryWords with
  | Except.error e => Except.error e
  | Except.ok matchingChunks =>
    Except.ok ((sortScoreDesc MatchingChunk.score matchingChunks).take
      (min topK matchingChunks.length))

/-- The expanded (pre-deduplication) keyed results of the selected seeds. -/
def searchExpanded (store : DocStore) (queryWords : List String) (topK : Nat) :
    Except String (List (String × SearchResult)) :=
  match searchSeeds store queryWords topK with
  | Except.error e => Except.error e
  | Except.ok seeds => Except.ok (seeds.filterMap (expandMatch store))

/-- `searchDocuments(query, topK)` of main.ts.  `topK` is a result count
(the callers pass `5` and `8`), modelled as `Nat`.  A thrown
`SyntaxError` from `new RegExp` propagates to the caller as `Except.error`. -/
def searchDocuments (store : DocStore) (query : String) (topK : Nat) :
    Except String (List SearchResult) :=
  if query.data.all Char.isWhitespace then Except.ok [] else
  let queryWords := queryTokens query
  if queryWords.isEmpty then Except.ok [] else
  match searchExpanded store queryWords topK with
  | Except.error e => Except.error e
  | Except.ok expanded =>
    Except.ok ((sortScoreDesc SearchResult.score ((dedupByKey expanded).map Prod.snd)).take topK)

/-- Spec-side count: the number of words of `text` (compared lowercased)
that begin with the (lowercased) token `t`. -/
def prefixWordOccurrences (t : String) (text : String) : Nat :=
  (textWords (jsToLowerCase text).data).countP (fun run => t.data.isPrefixOf run)

/-! ## Well-formed stores

On upload the source builds each document entry with
`chunks.map((chunkText, index) => ({docId, docName, chunkIndex: index, text}))`
and a JS `Map` cannot hold duplicate keys, so every reachable store has
distinct document ids and positionally-numbered chunk indices. -/

/-- Chunk indices of the list are `base, base + 1, …` positionally. -/
def indexedFromB : Nat → List Chunk → Bool
  | _, [] => true
  | j, c :: rest => c.chunkIndex == j && indexedFromB (j + 1) rest

def distinctKeysB : List String → Bool
  | [] => true
  | k :: rest => !(rest.any (fun k2 => k2 == k)) && distinctKeysB rest

/-- Reachable document stores. -/
def wfStore (store : DocStore) : Bool :=
  distinctKeysB (store.map Prod.fst) && store.all (fun e => indexedFromB 0 e.2)

/-! ## The spec side of neighbor expansion -/

/-- The neighbor indices the spec names: `i-1` (if it exists), `i`,
`i+1` (if it exists), in index order. -/
def specNeighborIndices (len i : Nat) : List Nat :=
  (if 1 ≤ i then [i - 1] else []) ++ [i] ++ (if i + 1 < len then [i + 1] else [])

/-- Spec-side combined text of a seed at index `i`: the texts of the chunks
at the neighbor indices, in index order, newline-joined. -/
def specNeighborText (docChunks : List Chunk) (i : Nat) : String :=
  String.intercalate "\n"
    ((specNeighborIndices docChunks.length i).filterMap
      (fun j => (docChunks.get? j).map Chunk.text))

/-- Nat interval `a .. b` inclusive. -/
def natRange (a b : Nat) : List Nat := (List.range (b + 1 - a)).map (fun j => a + j)

/-! ## Prompt Builder (`buildSystemPrompt`, main.ts lines 385-440) -/

/-- The capture context block's data (`{text, aiSolution}`). -/
structure CaptureContext where
  text : String
  aiSolution : String

deriving Repr, DecidableEq

/-- The fixed anti-hallucination / formatting / citation rule block of the
system prompt, verbatim from the source template literal. -/
def baseRules : String :=
  "You are a documentation assistant. Your ONLY job is to extract and present information EXACTLY as it appears in the provided documentation.\n\nCRITICAL RULES (NEVER VIOLATE):\n1. If information is NOT in the documentation below, say \"I cannot find this information in the documentation\"\n2. NEVER make up, infer, or generate information\n3. NEVER complete incomplete information - if steps are cut off, stop there\n4. ONLY use direct quotes and exact information from the documentation\n5. If you\u0027re unsure, say you don\u0027t know\n\nFORMAT YOUR RESPONSE:\n- Put procedure titles on their own line (no number before the title)\n- Put each step on a new line with proper numbering (1., 2., 3.)\n- Add blank lines between sections\n- Include ALL steps EXACTLY as written in the documentation\n- Stop immediately when the documentation ends - do NOT continue or complete the thought\n\nCITE SOURCES:\n- Always cite: [Source: filename.pdf]\n- Never add attributions or signatures\n\nWHAT YOU MUST NEVER DO:\n- ❌ Add information not explicitly in the documentation\n- ❌ Summarize or paraphrase - use exact wording\n- ❌ Add generic advice or best practices\n- ❌ Complete truncated procedures\n- ❌ Add attributions or signatures"

/-- The mandated literal fallback sentence the model is told to state
exactly when no documentation was retrieved. -/
def mandatedNoInfoSentence : String :=
  "I could not find information about this in the uploaded documents. Please upload relevant documentation or try different search keywords."

/-- The `CONTEXT FROM CAPTURE` block (present only for capture follow-ups). -/
def contextSection : Option CaptureContext → String
  | none => ""
  | some ctx =>
    "\n\nCONTEXT FROM CAPTURE:\nScreen content: \"" ++ ctx.text
      ++ "\"\nPrevious response: \"" ++ ctx.aiSolution ++ "\""

/-- The `DOCUMENTATION:` block, or the no-documentation fallback
instruction (one template literal in the source, written here as the
surrounding text concatenated with `mandatedNoInfoSentence`). -/
def docsSection (relevantDocs : List SearchResult) : String :=
  if relevantDocs.length > 0 then
    "\n\nDOCUMENTATION:\n"
      ++ String.intercalate "\n\n"
          (relevantDocs.map (fun doc => "[" ++ doc.docName ++ "]: " ++ doc.text))
  else
    "\n\nNo relevant documentation found. Say EXACTLY: \"" ++ mandatedNoInfoSentence ++ "\""

/-- `buildSystemPrompt({relevantDocs, captureContext?})`. -/
def buildSystemPrompt (relevantDocs : List SearchResult)
    (captureContext : Option CaptureContext) : String :=
  baseRules ++ contextSection captureContext ++ docsSection relevantDocs

/-! ## Response Validator (`validateAIResponse`, main.ts lines 443-494) -/

structure ValidationResult where
  isValid : Bool
  warning : Option String

deriving Repr, DecidableEq

def noInfoPhrases : List String :=
  ["cannot find", "could not find", "no information", "not in the documentation",
   "don\u0027t know"]

def genericPhrases : List String :=
  ["best practice", "it is recommended", "you should", "typically", "usually",
   "in general", "standard procedure is"]

def genericWarning : String :=
  "⚠️ Warning: Response may contain generic information not from your documents."

def incompleteWarning : String :=
  "⚠️ Warning: Response seems incomplete. Try rephrasing your question."

def validateAIResponse (response : String) (relevantDocs : List SearchResult) :
    ValidationResult :=
  let lowerResponse := jsToLowerCase response
  let hasNoInfoPhrase := noInfoPhrases.any (fun phrase => jsIncludes lowerResponse phrase)
  if hasNoInfoPhrase && relevantDocs.length == 0 then
    ⟨true, none⟩
  else
    let hasGenericPhrase := genericPhrases.any (fun phrase => jsIncludes lowerResponse phrase)
    if hasGenericPhrase && !jsIncludes lowerResponse "[source:" && !jsIncludes lowerResponse "[from " then
      ⟨false, some genericWarning⟩
    else if decide ((jsTrim response).length < 50) && decide (relevantDocs.length > 0) && !hasNoInfoPhrase then
      ⟨false, some incompleteWarning⟩
    else
      ⟨true, none⟩

/-! ## Orchestrator

The capture-screenshot and chat-followup IPC handlers and the helpers they
call.  External oracle calls are modelled by `Except String String`
outcome parameters (the outcome of the single `await` at that call site);
every function additionally returns the ordered list of oracle calls it
made, which makes "attempted once, no automatic retry" provable. -/

inductive OracleCall
  | ocr
  | completion

deriving Repr, DecidableEq

/-- The module-level AI initialization state (`aiInitialized` /
`aiInitializing` / `aiInitError`; `aiService.isInitialized()` is folded
into `initialized`). -/
structure AIState where
  initialized : Bool
  initializing : Bool
  initError : Option String

deriving Repr, DecidableEq

/-- A fully initialized AI service. -/
def readyAI : AIState := ⟨true, false, none⟩

/-- Append the validation warning to a reply when validation failed
(`if (!validation.isValid && validation.warning) reply + warning`). -/
def appendWarning (reply : String) (v : ValidationResult) : String :=
  if v.isValid = false then
    match v.warning with
    | some w => reply ++ "\n\n" ++ w
    | none => reply
  else reply

/-- `generateSolution(capturedText, relevantDocs)` (main.ts lines 331-382).
The prompt built from `capturedText` and `relevantDocs` is the request of
the completion oracle, whose outcome is the `completionOutcome` parameter;
a thrown completion error is caught inside this function and returned as
the solution string (not rethrown). -/
def generateSolution (ai : AIState) (completionOutcome : Except String String)
    (relevantDocs : List SearchResult) : String × List OracleCall :=
  if !ai.initialized then
    (match ai.initError with
      | some e => "AI unavailable: " ++ e ++ "\n\nPlease restart the app or check logs."
      | none =>
        if ai.initializing then
          "AI model is initializing... This may take several minutes on first launch (downloading 2.4GB model). Please wait and try again."
        else
          "AI service not initialized. Please restart the app.",
     [])
  else
    match completionOutcome with
    | Except.error e => ("Error generating solution: " ++ e, [OracleCall.completion])
    | Except.ok content =>
      let solution := if content == "" then "No solution generated." else content
      (appendWarning solution (validateAIResponse solution relevantDocs),
       [OracleCall.completion])

/-- `performRealOCR` (main.ts lines 497-529): Tesseract outcome, trimmed;
empty recognition becomes the placeholder text; an OCR error is rethrown. -/
def performRealOCR (ocrOutcome : Except String String) : Except String String :=
  match ocrOutcome with
  | Except.error e => Except.error e
  | Except.ok raw =>
    let text := jsTrim raw
    Except.ok (if text.length == 0 then "(No text detected in captured region)" else text)

/-- The structured result of the `capture-screenshot` handler (the image
payload is external and omitted). -/
structure CaptureResult where
  success : Bool
  text : Option String
  relevantDocs : List SearchResult
  aiSolution : Option String
  error : Option String

deriving Repr, DecidableEq

/-- The `capture-screenshot` IPC handler (main.ts lines 769-853) from the
OCR call onward (screen capture and cropping are external and presumed to
have produced the image buffer).  Any error thrown inside — OCR, or a
`SyntaxError` escaping `searchDocuments` — is caught by the handler's
`try/catch` and returned as `{success: false, error}`. -/
def captureSolve (ai : AIState) (store : DocStore)
    (ocrOutcome completionOutcome : Except String String) :
    CaptureResult × List OracleCall :=
  match performRealOCR ocrOutcome with
  | Except.error e => (⟨false, none, [], none, some e⟩, [OracleCall.ocr])
  | Except.ok text =>
    match searchDocuments store text 5 with
    | Except.error e => (⟨false, none, [], none, some e⟩, [OracleCall.ocr])
    | Except.ok relevantDocs =>
      let (aiSolution, calls) := generateSolution ai completionOutcome relevantDocs
      (⟨true, some text, relevantDocs, some aiSolution, none⟩, OracleCall.ocr :: calls)

/-- `message.slice(0, n)`. -/
def jsSlice (s : String) (n : Nat) : String := ⟨s.data.take n⟩

/-- `generateChatTitle` (main.ts lines 856-880): a completion-oracle call
whose failure is caught inside and replaced by a truncation fallback. -/
def generateChatTitle (ai : AIState) (titleOutcome : Except String String)
    (message : String) : String × List OracleCall :=
  if !ai.initialized then
    (jsSlice message 30 ++ (if 30 < message.length then "..." else ""), [])
  else
    match titleOutcome with
    | Except.error _ =>
      (jsSlice message 30 ++ (if 30 < message.length then "..." else ""),
       [OracleCall.completion])
    | Except.ok raw =>
      let t := jsTrim raw
      (if t == "" then jsSlice message 30 else t, [OracleCall.completion])

/-- The capture context carried by a chat request
(`data.captureContext = {text, aiSolution, relevantDocs}`). -/
structure ChatCaptureContext where
  text : String
  aiSolution : String
  relevantDocs : List SearchResult

deriving Repr, DecidableEq

/-- The payload of the `chat-followup` IPC call.  `chatHistory` is passed
through to the completion oracle's request and does not influence the
handler's control flow. -/
structure ChatRequest where
  message : String
  captureContext : ChatCaptureContext
  chatHistory : List (String × String)
  isNewChat : Bool
  generateTitle : Bool

deriving Repr, DecidableEq

structure ChatResult where
  success : Bool
  reply : Option String
  generatedTitle : Option String
  error : Option String

deriving Repr, DecidableEq

/-- The `chat-followup` IPC handler (main.ts lines 883-970).  A completion
error (or a `SyntaxError` escaping the knowledge-base search) is caught by
the handler's `try/catch` and returned as `{success: false, error}`. -/
def chatFollowup (ai : AIState) (store : DocStore) (req : ChatRequest)
    (completionOutcome titleOutcome : Except String String) :
    ChatResult × List OracleCall :=
  if !ai.initialized then
    (⟨false, none, none, some "AI service is not initialized. Model may still be loading."⟩, [])
  else
    let titlePart :=
      if req.generateTitle then
        let (t, calls) := generateChatTitle ai titleOutcome req.message
        ((some t : Option String), calls)
      else (none, [])
    let docsOutcome :=
      if req.isNewChat
          || (req.captureContext.text == "" && req.captureContext.relevantDocs.length == 0) then
        searchDocuments store req.message 8
      else Except.ok req.captureContext.relevantDocs
    match docsOutcome with
    | Except.error e => (⟨false, none, none, some e⟩, titlePart.2)
    | Except.ok relevantDocs =>
      match completionOutcome with
      | Except.error e =>
        (⟨false, none, none, some e⟩, titlePart.2 ++ [OracleCall.completion])
      | Except.ok content =>
        let reply := if content == "" then "No response generated." else content
        (⟨true, some (appendWarning reply (validateAIResponse reply relevantDocs)),
          titlePart.1, none⟩,
         titlePart.2 ++ [OracleCall.completion])

/-! ## Document deletion (`delete-document` handler, main.ts lines 1126-1152) -/

structure DocMetadata where
  id : String
  name : String
  path : String
  type : String
  uploadedAt : String
  chunks : Nat

deriving Repr, DecidableEq

def metaLookup (meta : List (String × DocMetadata)) (docId : String) : Option DocMetadata :=
  (meta.find? (fun e => e.1 == docId)).map Prod.snd

/-- The `delete-document` handler: look up the document (throw
`Document not found` otherwise), `await fs.unlink` (outcome is a
parameter; a rejection is rethrown before the in-memory maps are touched),
then delete the entry from both the chunks map and the metadata map
(`Map.delete`, modelled as filtering the key out). -/
def deleteDocument (meta : List (String × DocMetadata)) (store : DocStore)
    (docId : String) (unlinkOutcome : Except String Unit) :
    Except String (List (String × DocMetadata) × DocStore) :=
  match metaLookup meta docId with
  | none => Except.error "Document not found"
  | some _ =>
    match unlinkOutcome with
    | Except.error e => Except.error e
    | Except.ok _ =>
      Except.ok (meta.filter (fun e => !(e.1 == docId)),
                 store.filter (fun e => !(e.1 == docId)))

/-- The chunk and store used for the prefix-matching scenario of C3. -/
def chunkC3 : Chunk := ⟨"d2", "Deployment Guide.pdf", 0, "deployment"⟩

def deployStore : DocStore := [("d2", [chunkC3])]

/-- The chunk of the C3 counterexample: its text holds the literal word
"don\u0027t", which the pattern `\bdon\u0027t\w*` matches once although no
`\w`-delimited word begins with the token. -/
def chunkApos : Chunk := ⟨"d3", "notes.txt", 0, "don\u0027t worry"⟩

/-- The two-document store of the C4 witness (the spec's "topK = 1 with two
matching documents of different scores" scenario). -/
def storeC4 : DocStore :=
  [("a", [⟨"a", "a.pdf", 0, "error error"⟩]), ("b", [⟨"b", "b.pdf", 0, "error"⟩])]

/-- The three-chunk store of the C2 witness (only the middle chunk matches
the query "needle"). -/
def storeC2 : DocStore :=
  [("d1", [⟨"d1", "guide.pdf", 0, "alpha one"⟩,
           ⟨"d1", "guide.pdf", 1, "needle two"⟩,
           ⟨"d1", "guide.pdf", 2, "omega three"⟩])]

def resultC2 : SearchResult := ⟨"guide.pdf", "alpha one\nneedle two\nomega three", 1⟩

/-- The store of the C10 witness: two adjacent seeds of one document that
both expand to the chunk range `0-1`. -/
def storeC10 : DocStore :=
  [("d", [⟨"d", "notes.pdf", 0, "needle needle"⟩, ⟨"d", "notes.pdf", 1, "needle extra"⟩])]

def expandedC10 : List (String × SearchResult) :=
  [("d-0-1", ⟨"notes.pdf", "needle needle\nneedle extra", 2⟩),
   ("d-0-1", ⟨"notes.pdf", "needle needle\nneedle extra", 1⟩)]

/-! ## Oracle failure handling (C7) -/

def storeC7 : DocStore := [("d7", [⟨"d7", "kb.pdf", 0, "hello world"⟩])]

def docsC7 : List SearchResult := [⟨"kb.pdf", "hello world", 1⟩]

/-- A capture-rooted chat request reusing its capture's retrieval results
(no new search, no title generation). -/
def reqC7 : ChatRequest := ⟨"hello", ⟨"captured text", "prior answer", docsC7⟩, [], false, false⟩

def metaC8 : List (String × DocMetadata) :=
  [("d1", ⟨"d1", "a.pdf", "/docs/a.pdf", "pdf", "2024-01-01", 1⟩)]

def storeC8 : DocStore :=
  [("d1", [⟨"d1", "a.pdf", 0, "needle info"⟩]), ("d2", [⟨"d2", "b.pdf", 0, "other stuff"⟩])]

theorem runsByFuel_fuel_irrel (p : Char → Bool) :
    ∀ (f₁ f₂ : Nat) (s : List Char), s.length ≤ f₁ → s.length ≤ f₂ →
      runsByFuel p f₁ s = runsByFuel p f₂ s := by
  intro f₁
  induction f₁ with
  | zero =>
    intro f₂ s h₁ _
    have : s = [] := List.length_eq_zero.mp (Nat.le_zero.mp h₁)
    subst this
    cases f₂ <;> rfl
  | succ g ih =>
    intro f₂ s h₁ h₂
    cases s with
    | nil => cases f₂ <;> rfl
    | cons c rest =>
      cases f₂ with
      | zero => exact absurd h₂ (by simp)
      | succ h =>
        simp only [runsByFuel]
        cases hc : p c with
        | true =>
          simp only [if_true]
          have hdrop : ((c :: rest).dropWhile p).length ≤ rest.length := by
            have : (c :: rest).dropWhile p = rest.dropWhile p := by
              simp [List.dropWhile, hc]
            rw [this]
            exact ((List.dropWhile_sublist p).length_le)
          have hg : ((c :: rest).dropWhile p).length ≤ g := by
            simp only [List.length_cons] at h₁
            omega
          have hh : ((c :: rest).dropWhile p).length ≤ h := by
            simp only [List.length_cons] at h₂
            omega
          rw [ih h ((c :: rest).dropWhile p) hg hh]
        | false =>
          simp only [Bool.false_eq_true, if_false]
          have hg : rest.length ≤ g := by
            simp only [List.length_cons] at h₁; omega
          have hh : rest.length ≤ h := by
            simp only [List.length_cons] at h₂; omega
          rw [ih h rest hg hh]

theorem runsBy_nil (p : Char → Bool) : runsBy p [] = [] := rfl

theorem runsBy_cons_pos (p : Char → Bool) (c : Char) (rest : List Char) (h : p c = true) :
    runsBy p (c :: rest) =
      ((c :: rest).takeWhile p) :: runsBy p ((c :: rest).dropWhile p) := by
  show runsByFuel p (rest.length + 1) (c :: rest) = _
  simp only [runsByFuel, h, if_true]
  congr 1
  apply runsByFuel_fuel_irrel
  · have : (c :: rest).dropWhile p = rest.dropWhile p := by simp [List.dropWhile, h]
    rw [this]
    exact (List.dropWhile_sublist p).length_le
  · exact Nat.le_refl _

theorem runsBy_cons_neg (p : Char → Bool) (c : Char) (rest : List Char) (h : p c = false) :
    runsBy p (c :: rest) = runsBy p rest := by
  show runsByFuel p (rest.length + 1) (c :: rest) = _
  simp only [runsByFuel, h, if_false]
  apply runsByFuel_fuel_irrel <;> omega

theorem litScanFuel_fuel_irrel (t0 : Char) (trest : List Char) :
    ∀ (f₁ f₂ : Nat) (s : List Char) (prevW : Bool), s.length ≤ f₁ → s.length ≤ f₂ →
      litScanFuel t0 trest f₁ s prevW = litScanFuel t0 trest f₂ s prevW := by
  intro f₁
  induction f₁ with
  | zero =>
    intro f₂ s prevW h₁ _
    have : s = [] := List.length_eq_zero.mp (Nat.le_zero.mp h₁)
    subst this
    cases f₂ <;> rfl
  | succ g ih =>
    intro f₂ s prevW h₁ h₂
    cases s with
    | nil => cases f₂ <;> rfl
    | cons c rest =>
      cases f₂ with
      | zero => exact absurd h₂ (by simp)
      | succ h =>
        simp only [litScanFuel]
        cases hm : (!prevW && (t0 :: trest).isPrefixOf (c :: rest)) with
        | true =>
          simp only [if_true]
          set s' := ((c :: rest).drop (trest.length + 1)).dropWhile isWordChar with hs'
          have hlen : s'.length ≤ rest.length := by
            have h1 : s'.length ≤ ((c :: rest).drop (trest.length + 1)).length :=
              (List.dropWhile_sublist isWordChar).length_le
            have h2 : ((c :: rest).drop (trest.length + 1)).length
                = (c :: rest).length - (trest.length + 1) := List.length_drop _ _
            simp only [List.length_cons] at h2
            omega
          simp only [List.length_cons] at h₁ h₂
          rw [ih h s' true (by omega) (by omega)]
        | false =>
          simp only [Bool.false_eq_true, if_false]
          simp only [List.length_cons] at h₁ h₂
          rw [ih h rest (isWordChar c) (by omega) (by omega)]

theorem litScan_nil (t0 : Char) (trest : List Char) (prevW : Bool) :
    litScan t0 trest [] prevW = 0 := rfl

theorem litScan_cons_match (t0 : Char) (trest : List Char) (c : Char) (rest : List Char)
    (prevW : Bool) (h : (!prevW && (t0 :: trest).isPrefixOf (c :: rest)) = true) :
    litScan t0 trest (c :: rest) prevW =
      1 + litScan t0 trest (((c :: rest).drop (trest.length + 1)).dropWhile isWordChar) true := by
  show litScanFuel t0 trest (rest.length + 1) (c :: rest) prevW = _
  simp only [litScanFuel, h, if_true]
  congr 1
  apply litScanFuel_fuel_irrel
  · have h1 : (((c :: rest).drop (trest.length + 1)).dropWhile isWordChar).length
        ≤ ((c :: rest).drop (trest.length + 1)).length :=
      (List.dropWhile_sublist isWordChar).length_le
    have h2 : ((c :: rest).drop (trest.length + 1)).length
        = (c :: rest).length - (trest.length + 1) := List.length_drop _ _
    simp only [List.length_cons] at h2
    omega
  · exact Nat.le_refl _

theorem litScan_cons_skip (t0 : Char) (trest : List Char) (c : Char) (rest : List Char)
    (prevW : Bool) (h : (!prevW && (t0 :: trest).isPrefixOf (c :: rest)) = false) :
    litScan t0 trest (c :: rest) prevW = litScan t0 trest rest (isWordChar c) := by
  show litScanFuel t0 trest (rest.length + 1) (c :: rest) prevW = _
  simp only [litScanFuel, h, Bool.false_eq_true, if_false]
  apply litScanFuel_fuel_irrel <;> omega

/-! ## The regex count is a prefix-word count

The following lemmas prove that, for a compiling token, the number of
regex matches counted by the source equals the number of words of the
chunk text that begin with the token — the spec's description of prefix
matching. -/

theorem dropWhile_all_append (p : Char → Bool) :
    ∀ (t u : List Char), (∀ c ∈ t, p c = true) →
      (t ++ u).dropWhile p = u.dropWhile p := by
  intro t
  induction t with
  | nil => intro u _; rfl
  | cons c t ih =>
    intro u h
    have hc : p c = true := h c (List.mem_cons_self c t)
    simp only [List.cons_append, List.dropWhile_cons, hc, if_true]
    exact ih u (fun x hx => h x (List.mem_cons_of_mem c hx))

theorem takeWhile_all_append (p : Char → Bool) :
    ∀ (t u : List Char), (∀ c ∈ t, p c = true) →
      (t ++ u).takeWhile p = t ++ u.takeWhile p := by
  intro t
  induction t with
  | nil => intro u _; rfl
  | cons c t ih =>
    intro u h
    have hc : p c = true := h c (List.mem_cons_self c t)
    simp only [List.cons_append, List.takeWhile_cons, hc, if_true]
    rw [ih u (fun x hx => h x (List.mem_cons_of_mem c hx))]

theorem dropWhile_idempotent (p : Char → Bool) (l : List Char) :
    (l.dropWhile p).dropWhile p = l.dropWhile p := by
  induction l with
  | nil => rfl
  | cons c l ih =>
    by_cases hc : p c = true
    · simp only [List.dropWhile_cons, hc, if_true]
      exact ih
    · have hc' : p c = false := by revert hc; cases p c <;> simp
      simp [List.dropWhile_cons, hc']

/-- At boundary state, a non-word head character can never start a match
(the token starts with a word character), so it is skipped. -/
theorem litScan_false_nonword (t0 : Char) (trest : List Char) (c : Char) (rest : List Char)
    (hw : isWordChar t0 = true) (hc : isWordChar c = false) :
    litScan t0 trest (c :: rest) false = litScan t0 trest rest false := by
  have hpre : (t0 :: trest).isPrefixOf (c :: rest) = false := by
    cases hp : (t0 :: trest).isPrefixOf (c :: rest) with
    | false => rfl
    | true =>
      exfalso
      rcases List.isPrefixOf_iff_prefix.mp hp with ⟨u, hu⟩
      have : t0 = c := by
        have := congrArg (fun l => l.head?) hu
        simpa using this
      rw [this] at hw
      rw [hw] at hc
      exact Bool.true_eq_false.mp hc
  have := litScan_cons_skip t0 trest c rest false (by simp [hpre])
  rw [this, hc]

/-- Inside a word run (previous character is a word character) the scan
never matches until the run is over: it is equivalent to restarting at the
end of the run. -/
theorem litScan_true_eq (t0 : Char) (trest : List Char) (hw : isWordChar t0 = true) :
    ∀ s : List Char, litScan t0 trest s true = litScan t0 trest (s.dropWhile isWordChar) false := by
  intro s
  induction s with
  | nil => rfl
  | cons c rest ih =>
    have hskip := litScan_cons_skip t0 trest c rest true (by simp)
    cases hc : isWordChar c with
    | true =>
      rw [hskip, hc, ih]
      simp [List.dropWhile_cons, hc]
    | false =>
      rw [hskip, hc]
      simp only [List.dropWhile_cons, hc, Bool.false_eq_true, if_false]
      exact (litScan_false_nonword t0 trest c rest hw hc).symm

theorem litScan_eq_countP_aux (t0 : Char) (trest : List Char)
    (hw : ∀ c ∈ t0 :: trest, isWordChar c = true) :
    ∀ (n : Nat) (s : List Char), s.length ≤ n →
      litScan t0 trest s false =
        (textWords s).countP (fun run => (t0 :: trest).isPrefixOf run) := by
  have hw0 : isWordChar t0 = true := hw t0 (List.mem_cons_self _ _)
  intro n
  induction n with
  | zero =>
    intro s hs
    have : s = [] := List.length_eq_zero.mp (Nat.le_zero.mp hs)
    subst this
    rfl
  | succ n ih =>
    intro s hs
    cases s with
    | nil => rfl
    | cons c rest =>
      simp only [List.length_cons] at hs
      cases hc : isWordChar c with
      | false =>
        rw [litScan_false_nonword t0 trest c rest hw0 hc]
        rw [ih rest (by omega)]
        unfold textWords
        rw [runsBy_cons_neg isWordChar c rest hc]
      | true =>
        unfold textWords
        rw [runsBy_cons_pos isWordChar c rest hc, List.countP_cons]
        cases hp : (t0 :: trest).isPrefixOf (c :: rest) with
        | true =>
          -- the token matches here: one match, then the scan and the run
          -- both continue after the current word run
          rcases List.isPrefixOf_iff_prefix.mp hp with ⟨u, hu⟩
          have hword : ∀ x ∈ t0 :: trest, isWordChar x = true := hw
          have hdropu : (c :: rest).dropWhile isWordChar = u.dropWhile isWordChar := by
            rw [← hu]
            exact dropWhile_all_append isWordChar (t0 :: trest) u hword
          have hdropn : (c :: rest).drop (trest.length + 1) = u := by
            have : ((t0 :: trest) ++ u).drop (t0 :: trest).length = u := List.drop_left _ _
            simpa [hu, List.length_cons] using this
          have hmatch := litScan_cons_match t0 trest c rest false (by simp [hp])
          rw [hmatch, hdropn]
          rw [litScan_true_eq t0 trest hw0 (u.dropWhile isWordChar)]
          rw [dropWhile_idempotent]
          have hlen : (u.dropWhile isWordChar).length ≤ n := by
            have h1 : (u.dropWhile isWordChar).length ≤ u.length :=
              (List.dropWhile_sublist isWordChar).length_le
            have h2 : u.length ≤ rest.length := by
              have := congrArg List.length hu
              simp only [List.length_append, List.length_cons] at this
              omega
            omega
          rw [ih (u.dropWhile isWordChar) hlen]
          have htake : (t0 :: trest).isPrefixOf ((c :: rest).takeWhile isWordChar) = true := by
            apply List.isPrefixOf_iff_prefix.mpr
            rw [← hu, takeWhile_all_append isWordChar (t0 :: trest) u hword]
            exact List.prefix_append _ _
          rw [htake, ← hdropu]
          unfold textWords
          simp [Nat.add_comm]
        | false =>
          -- no match at the run start, hence none anywhere in this run
          have hskip := litScan_cons_skip t0 trest c rest false (by simp [hp])
          rw [hskip, hc, litScan_true_eq t0 trest hw0 rest]
          have hdrop : (c :: rest).dropWhile isWordChar = rest.dropWhile isWordChar := by
            simp [List.dropWhile_cons, hc]
          have hlen : (rest.dropWhile isWordChar).length ≤ n := by
            have := (List.dropWhile_sublist (l := rest) isWordChar).length_le
            omega
          rw [ih (rest.dropWhile isWordChar) hlen]
          have htake : (t0 :: trest).isPrefixOf ((c :: rest).takeWhile isWordChar) = false := by
            cases ht : (t0 :: trest).isPrefixOf ((c :: rest).takeWhile isWordChar) with
            | false => rfl
            | true =>
              exfalso
              have h1 : (t0 :: trest) <+: ((c :: rest).takeWhile isWordChar) :=
                List.isPrefixOf_iff_prefix.mp ht
              have h2 : ((c :: rest).takeWhile isWordChar) <+: (c :: rest) :=
                List.takeWhile_prefix isWordChar
              have := List.isPrefixOf_iff_prefix.mpr (h1.trans h2)
              rw [hp] at this
              exact absurd this (by simp)
          rw [htake, hdrop]
          simp only [Bool.false_eq_true, if_false, Nat.add_zero]
          unfold textWords
          simp

theorem atomsMatch_lit :
    ∀ (t : List Char) (s : List Char),
      atomsMatch (t.map RegexAtom.lit) s = t.isPrefixOf s := by
  intro t
  induction t with
  | nil => intro s; cases s <;> rfl
  | cons a t ih =>
    intro s
    cases s with
    | nil => rfl
    | cons c cs =>
      show (atomMatches (RegexAtom.lit a) c && atomsMatch (t.map RegexAtom.lit) cs)
          = ((a == c) && t.isPrefixOf cs)
      rw [ih cs]
      rfl

theorem drop_pred_length :
    ∀ (l : List Char), l ≠ [] → ∃ d, l.drop (l.length - 1) = [d] ∧ d ∈ l := by
  intro l
  induction l with
  | nil => intro h; exact absurd rfl h
  | cons c rest ih =>
    intro _
    cases rest with
    | nil => exact ⟨c, rfl, List.mem_singleton.mpr rfl⟩
    | cons x xs =>
      rcases ih (List.cons_ne_nil x xs) with ⟨d, hd, hdm⟩
      refine ⟨d, ?_, List.mem_cons_of_mem c hdm⟩
      have hlen : (c :: x :: xs).length - 1 = (x :: xs).length := by
        simp [List.length_cons]
      rw [hlen]
      show (x :: xs).drop ((x :: xs).length - 1 + 1 - 1) = [d]
      simpa using hd

/-- On an all-word-character token, the general pattern scan agrees with
the specialized scan `litScanFuel`: the boundary test degenerates to
"previous character is not a word character", and after every match the
scan sits just past a word character. -/
theorem regexScanFuel_lit_eq (t0 : Char) (trest : List Char)
    (hw : ∀ c ∈ t0 :: trest, isWordChar c = true) :
    ∀ (fuel : Nat) (s : List Char) (prevW : Bool), s.length ≤ fuel →
      regexScanFuel (RegexAtom.lit t0) (trest.map RegexAtom.lit) fuel s prevW
        = litScanFuel t0 trest fuel s prevW := by
  intro fuel
  induction fuel with
  | zero => intro s prevW _; rfl
  | succ fuel ih =>
    intro s prevW hs
    cases s with
    | nil => rfl
    | cons c rest =>
      simp only [List.length_cons] at hs
      have hmap : atomsMatch (RegexAtom.lit t0 :: trest.map RegexAtom.lit) (c :: rest)
          = (t0 :: trest).isPrefixOf (c :: rest) := by
        have := atomsMatch_lit (t0 :: trest) (c :: rest)
        simpa using this
      simp only [regexScanFuel, litScanFuel, hmap, List.length_map]
      cases hpre : (t0 :: trest).isPrefixOf (c :: rest) with
      | false =>
        simp only [Bool.and_false, Bool.false_eq_true, if_false]
        exact ih rest (isWordChar c) (by omega)
      | true =>
        rcases List.isPrefixOf_iff_prefix.mp hpre with ⟨u, hu⟩
        have hc : t0 = c := by
          have := congrArg List.head? hu
          simpa using this
        have hcw : isWordChar c = true := by
          rw [← hc]
          exact hw t0 (List.mem_cons_self _ _)
        rw [hcw]
        cases prevW with
        | true =>
          simp only [Bool.and_true, bne_self_eq_false, Bool.not_true, Bool.false_and,
            Bool.false_eq_true, if_false]
          exact ih rest true (by omega)
        | false =>
          simp only [Bool.and_true]
          have hcond : (false != true) = true := rfl
          rw [hcond]
          simp only [Bool.not_false, Bool.true_and, if_true]
          -- the character just before the resumption point is the token's
          -- last character, a word character
          have hlast : isWordChar (((c :: rest).drop trest.length).headD c) = true := by
            rcases drop_pred_length (t0 :: trest) (List.cons_ne_nil t0 trest) with ⟨d, hd, hdm⟩
            have hdrop : (c :: rest).drop trest.length = d :: u := by
              rw [← hu]
              have h1 : ((t0 :: trest) ++ u).drop trest.length
                  = (t0 :: trest).drop trest.length ++ u :=
                List.drop_append_of_le_length (by simp [List.length_cons])
              rw [h1]
              have h2 : (t0 :: trest).drop trest.length = [d] := by
                have : (t0 :: trest).length - 1 = trest.length := by
                  simp [List.length_cons]
                rw [← this]
                exact hd
              rw [h2]
              rfl
            rw [hdrop]
            exact hw d hdm
          rw [hlast]
          have hite : (if (((c :: rest).drop (trest.length + 1)).takeWhile isWordChar).isEmpty
              then true else true) = true := ite_self true
          rw [hite]
          congr 1
          apply ih
          have h1 : (((c :: rest).drop (trest.length + 1)).dropWhile isWordChar).length
              ≤ ((c :: rest).drop (trest.length + 1)).length :=
            (List.dropWhile_sublist isWordChar).length_le
          have h2 : ((c :: rest).drop (trest.length + 1)).length
              = (c :: rest).length - (trest.length + 1) := List.length_drop _ _
          simp only [List.length_cons] at h2
          omega

/-- On an all-word-character token, the compiled pattern is the list of
literal atoms. -/
theorem compileTokenChar_word (c : Char) (h : isWordChar c = true) :
    compileTokenChar c = some (RegexAtom.lit c) := by
  unfold compileTokenChar
  have hnotin : ¬ c ∈ ['^', '$', '\\', '*', '+', '?', '(', ')', '[', ']', '{', '}', '|'] := by
    intro hmem
    simp only [List.mem_cons, List.not_mem_nil, or_false] at hmem
    rcases hmem with rfl | rfl | rfl | rfl | rfl | rfl | rfl | rfl | rfl | rfl | rfl | rfl | rfl
      <;> exact absurd h (by decide)
  rw [if_neg hnotin]
  have hdot : (c == '.') = false := by
    cases hb : c == '.' with
    | false => rfl
    | true =>
      have : c = '.' := eq_of_beq hb
      rw [this] at h
      exact absurd h (by decide)
  rw [hdot]
  rfl

theorem compileToken_word :
    ∀ (w : List Char), w.all isWordChar = true →
      compileToken w = some (w.map RegexAtom.lit) := by
  intro w
  induction w with
  | nil => intro _; rfl
  | cons c cs ih =>
    intro h
    rcases List.all_eq_true.mp h c (List.mem_cons_self _ _) with hc
    have hcs : cs.all isWordChar = true :=
      List.all_eq_true.mpr (fun x hx => List.all_eq_true.mp h x (List.mem_cons_of_mem _ hx))
    show (match compileTokenChar c, compileToken cs with
      | some a, some as => some (a :: as)
      | _, _ => none) = some ((c :: cs).map RegexAtom.lit)
    rw [compileTokenChar_word c hc, ih hcs]
    rfl

/-- The match count of the compiled all-word-character token over the
lowercased chunk text is exactly the number of words of the chunk
beginning with the token. -/
theorem regexMatchCount_eq_prefixWordOccurrences (t : String) (text : String)
    (h : wordCharToken t = true) :
    regexMatchCount (t.data.map RegexAtom.lit) (jsToLowerCase text).data
      = prefixWordOccurrences t text := by
  unfold wordCharToken at h
  rcases Bool.and_eq_true_iff.mp h with ⟨hne, hall⟩
  cases hd : t.data with
  | nil => rw [hd] at hne; simp at hne
  | cons t0 trest =>
    have hw : ∀ c ∈ t0 :: trest, isWordChar c = true := by
      intro c hc
      rw [hd] at hall
      exact List.all_eq_true.mp hall c hc
    unfold regexMatchCount prefixWordOccurrences
    rw [hd, List.map_cons]
    show regexScan (RegexAtom.lit t0) (trest.map RegexAtom.lit) (jsToLowerCase text).data false
        = _
    unfold regexScan
    rw [regexScanFuel_lit_eq t0 trest hw _ _ false (Nat.le_refl _)]
    show litScan t0 trest (jsToLowerCase text).data false = _
    apply litScan_eq_countP_aux t0 trest hw
    exact Nat.le_refl _

/-! ## Basic properties of the stable sort -/

theorem insertScoreDesc_perm {α : Type} (score : α → Nat) (a : α) (l : List α) :
    (insertScoreDesc score a l).Perm (a :: l) := by
  induction l with
  | nil => exact List.Perm.refl _
  | cons b l ih =>
    unfold insertScoreDesc
    by_cases h : score a < score b
    · simp only [h, if_true]
      exact (ih.cons b).trans (List.Perm.swap a b l)
    · simp only [h, if_false]
      exact List.Perm.refl _

theorem sortScoreDesc_perm {α : Type} (score : α → Nat) (l : List α) :
    (sortScoreDesc score l).Perm l := by
  induction l with
  | nil => exact List.Perm.refl _
  | cons a l ih =>
    exact (insertScoreDesc_perm score a (sortScoreDesc score l)).trans (ih.cons a)

theorem insertScoreDesc_pairwise {α : Type} (score : α → Nat) (a : α) (l : List α)
    (h : l.Pairwise (fun x y => score y ≤ score x)) :
    (insertScoreDesc score a l).Pairwise (fun x y => score y ≤ score x) := by
  induction l with
  | nil => simp [insertScoreDesc]
  | cons b l ih =>
    rcases List.pairwise_cons.mp h with ⟨hb, hl⟩
    unfold insertScoreDesc
    by_cases hab : score a < score b
    · simp only [hab, if_true]
      apply List.pairwise_cons.mpr
      refine ⟨?_, ih hl⟩
      intro y hy
      have hy' : y ∈ a :: l := (insertScoreDesc_perm score a l).mem_iff.mp hy
      rcases List.mem_cons.mp hy' with rfl | hyl
      · exact Nat.le_of_lt hab
      · exact hb y hyl
    · simp only [hab, if_false]
      apply List.pairwise_cons.mpr
      refine ⟨?_, h⟩
      intro y hy
      rcases List.mem_cons.mp hy with rfl | hyl
      · exact Nat.le_of_not_lt hab
      · exact Nat.le_trans (hb y hyl) (Nat.le_of_not_lt hab)

theorem sortScoreDesc_pairwise {α : Type} (score : α → Nat) (l : List α) :
    (sortScoreDesc score l).Pairwise (fun x y => score y ≤ score x) := by
  induction l with
  | nil => exact List.Pairwise.nil
  | cons a l ih => exact insertScoreDesc_pairwise score a _ ih

/-! ## Characterizing the scoring loop -/

theorem scoreChunk_ok_of_compiles (queryWords : List String) (chunk : Chunk)
    (h : ∀ w ∈ queryWords, wordCharToken w = true) :
    scoreChunk queryWords chunk =
      Except.ok ((queryWords.map (fun t => prefixWordOccurrences t chunk.text)).sum) := by
  unfold scoreChunk
  suffices haux : ∀ (ws : List String) (acc : Nat), (∀ w ∈ ws, wordCharToken w = true) →
      ws.foldlM
        (fun score word =>
          match compileToken word.data with
          | none => Except.error regexSyntaxError
          | some atoms =>
            Except.ok (score + regexMatchCount atoms (jsToLowerCase chunk.text).data))
        acc
      = Except.ok (acc + (ws.map (fun t => prefixWordOccurrences t chunk.text)).sum) by
    have := haux queryWords 0 h
    simpa using this
  intro ws
  induction ws with
  | nil => intro acc _; rfl
  | cons w ws ih =>
    intro acc hws
    have hw : wordCharToken w = true := hws w (List.mem_cons_self _ _)
    have hall : w.data.all isWordChar = true := (Bool.and_eq_true_iff.mp hw).2
    rw [List.foldlM_cons]
    simp only [compileToken_word w.data hall]
    rw [regexMatchCount_eq_prefixWordOccurrences w chunk.text hw]
    have hbind : ∀ (a : Nat) (f : Nat → Except String Nat),
        (Except.ok a >>= f) = f a := fun _ _ => rfl
    rw [hbind]
    rw [ih (acc + prefixWordOccurrences w chunk.text)
          (fun x hx => hws x (List.mem_cons_of_mem _ hx))]
    simp only [List.map_cons, List.sum_cons]
    congr 1
    omega

theorem except_bind_ok {α β : Type} (a : α) (f : α → Except String β) :
    (Except.ok a >>= f) = f a := rfl

theorem except_bind_error {α β : Type} (e : String) (f : α → Except String β) :
    ((Except.error e : Except String α) >>= f) = Except.error e := rfl

theorem except_pure_bind {α β : Type} (a : α) (f : α → Except String β) :
    ((pure a : Except String α) >>= f) = f a := rfl

theorem matchStep_all_zero (queryWords : List String) (docId : String)
    (acc : List MatchingChunk) (chunk : Chunk)
    (h : scoreChunk queryWords chunk = Except.ok 0) :
    matchStep queryWords docId acc chunk = Except.ok acc := by
  unfold matchStep
  rw [h]
  rfl

theorem chunkFold_all_zero (queryWords : List String) (docId : String) :
    ∀ (chunks : List Chunk) (acc : List MatchingChunk),
      (∀ c ∈ chunks, scoreChunk queryWords c = Except.ok 0) →
      chunks.foldlM (matchStep queryWords docId) acc = Except.ok acc := by
  intro chunks
  induction chunks with
  | nil => intro acc _; rfl
  | cons c cs ih =>
    intro acc h
    rw [List.foldlM_cons, matchStep_all_zero queryWords docId acc c
      (h c (List.mem_cons_self _ _))]
    exact ih acc (fun x hx => h x (List.mem_cons_of_mem _ hx))

theorem collectMatches_all_zero (store : DocStore) (queryWords : List String)
    (h : ∀ e ∈ store, ∀ c ∈ e.2, scoreChunk queryWords c = Except.ok 0) :
    collectMatches store queryWords = Except.ok [] := by
  unfold collectMatches
  suffices haux : ∀ (entries : DocStore) (acc : List MatchingChunk),
      (∀ e ∈ entries, ∀ c ∈ e.2, scoreChunk queryWords c = Except.ok 0) →
      entries.foldlM (fun acc entry => entry.2.foldlM (matchStep queryWords entry.1) acc) acc
        = Except.ok acc from haux store [] h
  intro entries
  induction entries with
  | nil => intro acc _; rfl
  | cons e es ih =>
    intro acc h
    rw [List.foldlM_cons, chunkFold_all_zero queryWords e.1 e.2 acc
      (h e (List.mem_cons_self _ _))]
    exact ih acc (fun x hx => h x (List.mem_cons_of_mem _ hx))

theorem chunkFold_mem (queryWords : List String) (docId : String) :
    ∀ (chunks : List Chunk) (acc out : List MatchingChunk),
      chunks.foldlM (matchStep queryWords docId) acc = Except.ok out →
      ∀ x ∈ out, x ∈ acc ∨ ∃ c ∈ chunks,
        x = ⟨docId, c.docName, c.chunkIndex, c.text, x.score⟩ ∧
        scoreChunk queryWords c = Except.ok x.score ∧ 0 < x.score := by
  intro chunks
  induction chunks with
  | nil =>
    intro acc out hfold x hx
    have : acc = out := by
      have : Except.ok (ε := String) acc = Except.ok out := hfold
      exact Except.ok.inj this
    subst this
    exact Or.inl hx
  | cons c cs ih =>
    intro acc out hfold x hx
    rw [List.foldlM_cons] at hfold
    cases hsc : scoreChunk queryWords c with
    | error e =>
      exfalso
      unfold matchStep at hfold
      rw [hsc, except_bind_error, except_bind_error] at hfold
      exact Except.noConfusion hfold
    | ok s =>
      unfold matchStep at hfold
      rw [hsc, except_bind_ok] at hfold
      by_cases hs : s > 0
      · rw [if_pos hs, except_pure_bind] at hfold
        have hfold' : cs.foldlM (matchStep queryWords docId)
            (acc ++ [⟨docId, c.docName, c.chunkIndex, c.text, s⟩]) = Except.ok out := hfold
        rcases ih _ out hfold' x hx with hacc | ⟨c', hc', hrest⟩
        · rcases List.mem_append.mp hacc with h1 | h2
          · exact Or.inl h1
          · have hxeq : x = ⟨docId, c.docName, c.chunkIndex, c.text, s⟩ :=
              List.mem_singleton.mp h2
            refine Or.inr ⟨c, List.mem_cons_self _ _, ?_, ?_, ?_⟩
            · rw [hxeq]
            · rw [hxeq]; exact hsc
            · rw [hxeq]; exact hs
        · exact Or.inr ⟨c', List.mem_cons_of_mem _ hc', hrest⟩
      · rw [if_neg hs, except_pure_bind] at hfold
        rcases ih acc out hfold x hx with hacc | ⟨c', hc', hrest⟩
        · exact Or.inl hacc
        · exact Or.inr ⟨c', List.mem_cons_of_mem _ hc', hrest⟩

theorem collectMatches_mem (store : DocStore) (queryWords : List String)
    (out : List MatchingChunk) (hfold : collectMatches store queryWords = Except.ok out) :
    ∀ x ∈ out, ∃ e ∈ store, ∃ c ∈ e.2,
      x = ⟨e.1, c.docName, c.chunkIndex, c.text, x.score⟩ ∧
      scoreChunk queryWords c = Except.ok x.score ∧ 0 < x.score := by
  unfold collectMatches at hfold
  suffices haux : ∀ (entries : DocStore) (acc accOut : List MatchingChunk),
      entries.foldlM (fun acc entry => entry.2.foldlM (matchStep queryWords entry.1) acc) acc
        = Except.ok accOut →
      ∀ x ∈ accOut, x ∈ acc ∨ ∃ e ∈ entries, ∃ c ∈ e.2,
        x = ⟨e.1, c.docName, c.chunkIndex, c.text, x.score⟩ ∧
        scoreChunk queryWords c = Except.ok x.score ∧ 0 < x.score by
    intro x hx
    rcases haux store [] out hfold x hx with h | h
    · exact absurd h (List.not_mem_nil x)
    · exact h
  intro entries
  induction entries with
  | nil =>
    intro acc accOut hf x hx
    have : acc = accOut := by
      have : Except.ok (ε := String) acc = Except.ok accOut := hf
      exact Except.ok.inj this
    subst this
    exact Or.inl hx
  | cons e es ih =>
    intro acc accOut hf x hx
    rw [List.foldlM_cons] at hf
    cases hinner : e.2.foldlM (matchStep queryWords e.1) acc with
    | error err =>
      exfalso
      rw [hinner, except_bind_error] at hf
      exact Except.noConfusion hf
    | ok acc' =>
      rw [hinner, except_bind_ok] at hf
      have hf' : es.foldlM (fun acc entry => entry.2.foldlM (matchStep queryWords entry.1) acc) acc'
          = Except.ok accOut := hf
      rcases ih acc' accOut hf' x hx with hacc' | ⟨e', he', rest⟩
      · rcases chunkFold_mem queryWords e.1 e.2 acc acc' hinner x hacc' with hacc | ⟨c, hc, rest⟩
        · exact Or.inl hacc
        · exact Or.inr ⟨e, List.mem_cons_self _ _, c, hc, rest⟩
      · exact Or.inr ⟨e', List.mem_cons_of_mem _ he', rest⟩

/-! ## Characterizing deduplication -/

theorem dedupFold_mem :
    ∀ (l acc : List (String × SearchResult)) (x : String × SearchResult),
      x ∈ l.foldl dedupStep acc → x ∈ acc ∨ x ∈ l := by
  intro l
  induction l with
  | nil => intro acc x hx; exact Or.inl hx
  | cons kv l ih =>
    intro acc x hx
    rw [List.foldl_cons] at hx
    rcases ih (dedupStep acc kv) x hx with h | h
    · unfold dedupStep at h
      by_cases hany : acc.any (fun p => p.1 == kv.1) = true
      · rw [if_pos hany] at h
        exact Or.inl h
      · rw [if_neg hany] at h
        rcases List.mem_append.mp h with h1 | h2
        · exact Or.inl h1
        · exact Or.inr (List.mem_cons.mpr (Or.inl (List.mem_singleton.mp h2)))
    · exact Or.inr (List.mem_cons_of_mem _ h)

theorem dedupFold_length :
    ∀ (l acc : List (String × SearchResult)),
      (l.foldl dedupStep acc).length ≤ acc.length + l.length := by
  intro l
  induction l with
  | nil => intro acc; simp
  | cons kv l ih =>
    intro acc
    rw [List.foldl_cons]
    have h := ih (dedupStep acc kv)
    have hstep : (dedupStep acc kv).length ≤ acc.length + 1 := by
      unfold dedupStep
      by_cases hany : acc.any (fun p => p.1 == kv.1) = true
      · rw [if_pos hany]; omega
      · rw [if_neg hany]; simp
    simp only [List.length_cons]
    omega

theorem dedupFold_filter_present (k : String) :
    ∀ (l acc : List (String × SearchResult)),
      acc.any (fun p => p.1 == k) = true →
      (l.foldl dedupStep acc).filter (fun p => p.1 == k) = acc.filter (fun p => p.1 == k) := by
  intro l
  induction l with
  | nil => intro acc _; rfl
  | cons kv l ih =>
    intro acc hany
    rw [List.foldl_cons]
    by_cases hkv : acc.any (fun p => p.1 == kv.1) = true
    · have hd : dedupStep acc kv = acc := by unfold dedupStep; rw [if_pos hkv]
      rw [hd]
      exact ih acc hany
    · have hd : dedupStep acc kv = acc ++ [kv] := by unfold dedupStep; rw [if_neg hkv]
      rw [hd]
      have hne : (kv.1 == k) = false := by
        cases hb : kv.1 == k with
        | false => rfl
        | true =>
          exfalso
          have : kv.1 = k := eq_of_beq hb
          rw [← this] at hany
          exact hkv hany
      have hacc' : (acc ++ [kv]).any (fun p => p.1 == k) = true := by
        rw [List.any_append]
        simp [hany]
      rw [ih (acc ++ [kv]) hacc']
      rw [List.filter_append]
      simp [hne]

theorem dedupFold_filter_absent (k : String) :
    ∀ (l acc : List (String × SearchResult)),
      acc.any (fun p => p.1 == k) = false →
      (l.foldl dedupStep acc).filter (fun p => p.1 == k)
        = acc.filter (fun p => p.1 == k) ++ (l.find? (fun p => p.1 == k)).toList := by
  intro l
  induction l with
  | nil =>
    intro acc _
    simp [List.find?]
  | cons kv l ih =>
    intro acc hany
    rw [List.foldl_cons]
    cases hkv : kv.1 == k with
    | true =>
      have hkeq : kv.1 = k := eq_of_beq hkv
      have hstep : dedupStep acc kv = acc ++ [kv] := by
        unfold dedupStep
        rw [if_neg]
        rw [hkeq]
        simp [hany]
      rw [hstep]
      have hpresent : (acc ++ [kv]).any (fun p => p.1 == k) = true := by
        rw [List.any_append]
        simp [hkv]
      rw [dedupFold_filter_present k l (acc ++ [kv]) hpresent]
      rw [List.filter_append]
      have hfind : (kv :: l).find? (fun p => p.1 == k) = some kv := by
        rw [List.find?_cons, hkv]
      rw [hfind]
      simp [hkv]
    | false =>
      have hstep : (dedupStep acc kv).any (fun p => p.1 == k) = false ∧
          (dedupStep acc kv).filter (fun p => p.1 == k) = acc.filter (fun p => p.1 == k) := by
        unfold dedupStep
        by_cases h : acc.any (fun p => p.1 == kv.1) = true
        · rw [if_pos h]
          exact ⟨hany, rfl⟩
        · rw [if_neg h]
          constructor
          · rw [List.any_append]
            simp [hany, hkv]
          · rw [List.filter_append]
            simp [hkv]
      rw [ih (dedupStep acc kv) hstep.1, hstep.2]
      have hfind : (kv :: l).find? (fun p => p.1 == k) = l.find? (fun p => p.1 == k) := by
        rw [List.find?_cons, hkv]
      rw [hfind]

theorem dedupByKey_filter (k : String) (l : List (String × SearchResult)) :
    (dedupByKey l).filter (fun p => p.1 == k) = (l.find? (fun p => p.1 == k)).toList := by
  unfold dedupByKey
  have := dedupFold_filter_absent k l [] rfl
  simpa using this

/-- In a score-descending list, the first element satisfying a predicate
has the greatest score among all elements satisfying it. -/
theorem find?_score_max (pred : (String × SearchResult) → Bool) :
    ∀ (l : List (String × SearchResult)),
      l.Pairwise (fun x y => y.2.score ≤ x.2.score) →
      ∀ q0, l.find? pred = some q0 →
      ∀ q ∈ l, pred q = true → q.2.score ≤ q0.2.score := by
  intro l
  induction l with
  | nil => intro _ q0 hfind; exact absurd hfind (by simp)
  | cons x l ih =>
    intro hpw q0 hfind q hq hpredq
    rcases List.pairwise_cons.mp hpw with ⟨hx, hl⟩
    rw [List.find?_cons] at hfind
    cases hpx : pred x with
    | true =>
      rw [hpx] at hfind
      have : q0 = x := by
        have : some x = some q0 := hfind
        exact (Option.some.inj this).symm
      subst this
      rcases List.mem_cons.mp hq with rfl | hql
      · exact Nat.le_refl _
      · exact hx q hql
    | false =>
      rw [hpx] at hfind
      rcases List.mem_cons.mp hq with rfl | hql
      · rw [hpredq] at hpx
        exact absurd hpx (by simp)
      · exact ih hl q0 hfind q hql hpredq

theorem indexedFromB_mem :
    ∀ (chunks : List Chunk) (base : Nat), indexedFromB base chunks = true →
      ∀ c ∈ chunks, base ≤ c.chunkIndex ∧ c.chunkIndex - base < chunks.length := by
  intro chunks
  induction chunks with
  | nil => intro base _ c hc; exact absurd hc (List.not_mem_nil c)
  | cons c0 rest ih =>
    intro base hidx c hc
    rcases Bool.and_eq_true_iff.mp hidx with ⟨h0, hrest⟩
    have h0' : c0.chunkIndex = base := eq_of_beq h0
    rcases List.mem_cons.mp hc with rfl | hcr
    · simp only [h0', List.length_cons]
      omega
    · have := ih (base + 1) hrest c hcr
      simp only [List.length_cons]
      omega

theorem find_chunkIndex_int :
    ∀ (chunks : List Chunk) (base : Nat), indexedFromB base chunks = true →
      ∀ (j : Nat), base ≤ j → j - base < chunks.length →
        chunks.find? (fun c => ((c.chunkIndex : Int)) == ((j : Int))) = chunks.get? (j - base) := by
  intro chunks
  induction chunks with
  | nil =>
    intro base _ j _ hj
    simp at hj
  | cons c0 rest ih =>
    intro base hidx j hbase hj
    rcases Bool.and_eq_true_iff.mp hidx with ⟨h0, hrest⟩
    have h0' : c0.chunkIndex = base := eq_of_beq h0
    rw [List.find?_cons]
    by_cases hjb : j = base
    · subst hjb
      have hpred : ((c0.chunkIndex : Int) == ((j : Int))) = true := by
        rw [h0']
        exact beq_self_eq_true _
      rw [hpred]
      simp
    · have hpred : ((c0.chunkIndex : Int) == ((j : Int))) = false := by
        rw [h0']
        cases hb : ((base : Int) == ((j : Int))) with
        | false => rfl
        | true =>
          exfalso
          have : (base : Int) = (j : Int) := eq_of_beq hb
          have : base = j := by exact_mod_cast this
          exact hjb this.symm
      rw [hpred]
      have hge : base + 1 ≤ j := by omega
      have hlen : j - (base + 1) < rest.length := by
        simp only [List.length_cons] at hj
        omega
      rw [ih (base + 1) hrest j hge hlen]
      have : j - base = (j - (base + 1)) + 1 := by omega
      rw [this]
      rfl

theorem storeLookup_self :
    ∀ (store : DocStore), distinctKeysB (store.map Prod.fst) = true →
      ∀ e ∈ store, storeLookup store e.1 = some e.2 := by
  intro store
  induction store with
  | nil => intro _ e he; exact absurd he (List.not_mem_nil e)
  | cons f rest ih =>
    intro hkeys e he
    rcases Bool.and_eq_true_iff.mp hkeys with ⟨hnotin, hrest⟩
    rcases List.mem_cons.mp he with rfl | her
    · unfold storeLookup
      rw [List.find?_cons, beq_self_eq_true]
      rfl
    · have hne : (f.1 == e.1) = false := by
        cases hb : f.1 == e.1 with
        | false => rfl
        | true =>
          exfalso
          have hfe : f.1 = e.1 := eq_of_beq hb
          have hmem : e.1 ∈ rest.map Prod.fst := List.mem_map_of_mem Prod.fst her
          have : ((rest.map Prod.fst).any fun k2 => k2 == f.1) = true :=
            List.any_eq_true.mpr ⟨e.1, hmem, by rw [hfe]; exact beq_self_eq_true _⟩
          rw [this] at hnotin
          exact absurd hnotin (by simp)
      unfold storeLookup
      rw [List.find?_cons, hne]
      exact ih hrest e her

theorem intRange_natCast (a b : Nat) :
    intRange (a : Int) (b : Int) = (natRange a b).map (fun (j : Nat) => (j : Int)) := by
  unfold intRange natRange
  rw [List.map_map]
  have h1 : ((b : Int) + 1 - (a : Int)).toNat = b + 1 - a := by omega
  rw [h1]
  apply List.map_congr_left
  intro j _
  simp only [Function.comp]
  push_cast
  ring

theorem natRange_mem_le :
    ∀ (a b j : Nat), j ∈ natRange a b → a ≤ j ∧ j ≤ b := by
  intro a b j hj
  unfold natRange at hj
  rcases List.mem_map.mp hj with ⟨k, hk, rfl⟩
  have := List.mem_range.mp hk
  omega

theorem natRange_eq_specNeighborIndices (len i0 : Nat) (hlt : i0 < len) :
    natRange (i0 - 1) (min (len - 1) (i0 + 1)) = specNeighborIndices len i0 := by
  unfold natRange specNeighborIndices
  by_cases h0 : 1 ≤ i0
  · by_cases h1 : i0 + 1 < len
    · have hB : min (len - 1) (i0 + 1) = i0 + 1 := by omega
      have hk : i0 + 1 + 1 - (i0 - 1) = 3 := by omega
      rw [hB, hk]
      have hr : List.range 3 = [0, 1, 2] := rfl
      rw [hr]
      simp only [List.map_cons, List.map_nil, if_pos h0, if_pos h1]
      have e0 : i0 - 1 + 0 = i0 - 1 := by omega
      have e1 : i0 - 1 + 1 = i0 := by omega
      have e2 : i0 - 1 + 2 = i0 + 1 := by omega
      rw [e0, e1, e2]
      rfl
    · have hB : min (len - 1) (i0 + 1) = i0 := by omega
      have hk : i0 + 1 - (i0 - 1) = 2 := by omega
      rw [hB, hk]
      have hr : List.range 2 = [0, 1] := rfl
      rw [hr]
      simp only [List.map_cons, List.map_nil, if_pos h0, if_neg h1]
      have e0 : i0 - 1 + 0 = i0 - 1 := by omega
      have e1 : i0 - 1 + 1 = i0 := by omega
      rw [e0, e1]
      rfl
  · have hi0 : i0 = 0 := by omega
    subst hi0
    by_cases h1 : 0 + 1 < len
    · have hB : min (len - 1) (0 + 1) = 1 := by omega
      rw [hB]
      have hr : List.range (1 + 1 - (0 - 1)) = [0, 1] := rfl
      rw [hr]
      simp only [List.map_cons, List.map_nil, if_neg h0, if_pos h1]
      rfl
    · have hlen : len = 1 := by omega
      subst hlen
      rfl

theorem combined_eq_spec (docChunks : List Chunk) (i0 : Nat)
    (hidx : indexedFromB 0 docChunks = true) (hlt : i0 < docChunks.length) :
    (intRange (max 0 ((i0 : Int) - 1))
        (min ((docChunks.length : Int) - 1) ((i0 : Int) + 1))).filterMap
        (fun i => (docChunks.find? (fun c => ((c.chunkIndex : Int)) == i)).map Chunk.text)
      = (specNeighborIndices docChunks.length i0).filterMap
          (fun j => (docChunks.get? j).map Chunk.text) := by
  have hstart : max 0 ((i0 : Int) - 1) = ((i0 - 1 : Nat) : Int) := by omega
  have hend : min ((docChunks.length : Int) - 1) ((i0 : Int) + 1)
      = ((min (docChunks.length - 1) (i0 + 1) : Nat) : Int) := by omega
  rw [hstart, hend, intRange_natCast, List.filterMap_map]
  rw [natRange_eq_specNeighborIndices docChunks.length i0 hlt]
  apply List.filterMap_congr
  intro j hj
  simp only [Function.comp]
  have hjlt : j < docChunks.length := by
    have hj' : j ∈ natRange (i0 - 1) (min (docChunks.length - 1) (i0 + 1)) := by
      rw [natRange_eq_specNeighborIndices docChunks.length i0 hlt]
      exact hj
    have := natRange_mem_le _ _ _ hj'
    omega
  rw [find_chunkIndex_int docChunks 0 hidx j (Nat.zero_le j) (by simpa using hjlt)]
  rw [Nat.sub_zero]

/-- Under a well-formed store, the combined text the source builds for a
seed at index `i` is exactly the spec-side neighbor text. -/
theorem expandMatch_wf (store : DocStore) (m : MatchingChunk) (docChunks : List Chunk)
    (hfind : storeLookup store m.docId = some docChunks)
    (hidx : indexedFromB 0 docChunks = true)
    (hlt : m.chunkIndex < docChunks.length) :
    expandMatch store m =
      some (m.docId ++ "-" ++ toString (max 0 ((m.chunkIndex : Int) - 1)) ++ "-"
              ++ toString (min ((docChunks.length : Int) - 1) ((m.chunkIndex : Int) + 1)),
            ⟨m.docName, specNeighborText docChunks m.chunkIndex, m.score⟩) := by
  unfold expandMatch
  rw [hfind]
  dsimp only
  rw [combined_eq_spec docChunks m.chunkIndex hidx hlt]
  rfl

/-! ## Inversion lemmas for the search pipeline -/

theorem string_append_assoc (a b c : String) : (a ++ b) ++ c = a ++ (b ++ c) := by
  cases a with
  | mk la =>
    cases b with
    | mk lb =>
      cases c with
      | mk lc =>
        show String.mk ((la ++ lb) ++ lc) = String.mk (la ++ (lb ++ lc))
        rw [List.append_assoc]

theorem collectMatches_nil (queryWords : List String) :
    collectMatches [] queryWords = Except.ok [] := rfl

theorem searchSeeds_of_no_matches (store : DocStore) (queryWords : List String) (topK : Nat)
    (h : collectMatches store queryWords = Except.ok []) :
    searchSeeds store queryWords topK = Except.ok [] := by
  unfold searchSeeds
  rw [h]
  simp [sortScoreDesc]

theorem searchExpanded_of_no_matches (store : DocStore) (queryWords : List String) (topK : Nat)
    (h : collectMatches store queryWords = Except.ok []) :
    searchExpanded store queryWords topK = Except.ok [] := by
  unfold searchExpanded
  rw [searchSeeds_of_no_matches store queryWords topK h]
  rfl

theorem searchDocuments_of_no_matches (store : DocStore) (query : String) (topK : Nat)
    (h : collectMatches store (queryTokens query) = Except.ok []) :
    searchDocuments store query topK = Except.ok [] := by
  unfold searchDocuments
  by_cases h1 : query.data.all Char.isWhitespace = true
  · rw [if_pos h1]
  · rw [if_neg h1]
    dsimp only
    by_cases h2 : (queryTokens query).isEmpty = true
    · rw [if_pos h2]
    · rw [if_neg h2]
      rw [searchExpanded_of_no_matches store (queryTokens query) topK h]
      simp [dedupByKey, sortScoreDesc]

theorem runsBy_all_neg (p : Char → Bool) :
    ∀ (s : List Char), (∀ c ∈ s, p c = false) → runsBy p s = [] := by
  intro s
  induction s with
  | nil => intro _; rfl
  | cons c rest ih =>
    intro h
    rw [runsBy_cons_neg p c rest (h c (List.mem_cons_self _ _))]
    exact ih (fun x hx => h x (List.mem_cons_of_mem _ hx))

theorem toLower_whitespace (c : Char) (h : c.isWhitespace = true) :
    Char.toLower c = c := by
  simp [Char.isWhitespace] at h
  rcases h with ((rfl | rfl) | rfl) | rfl <;> decide

theorem queryTokens_blank (query : String) (h : query.data.all Char.isWhitespace = true) :
    queryTokens query = [] := by
  unfold queryTokens
  have hruns : runsBy (fun c => !c.isWhitespace) (jsToLowerCase query).data = [] := by
    apply runsBy_all_neg
    intro c hc
    unfold jsToLowerCase at hc
    rcases List.mem_map.mp hc with ⟨c0, hc0, rfl⟩
    have hws : c0.isWhitespace = true := List.all_eq_true.mp h c0 hc0
    rw [toLower_whitespace c0 hws]
    simp [hws]
  rw [hruns]
  rfl

theorem searchDocuments_ok_cases (store : DocStore) (query : String) (topK : Nat)
    (results : List SearchResult)
    (h : searchDocuments store query topK = Except.ok results) :
    (queryTokens query = [] ∧ results = [])
    ∨ ∃ expanded, searchExpanded store (queryTokens query) topK = Except.ok expanded
        ∧ results
          = (sortScoreDesc SearchResult.score ((dedupByKey expanded).map Prod.snd)).take topK := by
  unfold searchDocuments at h
  by_cases h1 : query.data.all Char.isWhitespace = true
  · rw [if_pos h1] at h
    exact Or.inl ⟨queryTokens_blank query h1, (Except.ok.inj h).symm⟩
  · rw [if_neg h1] at h
    dsimp only at h
    by_cases h2 : (queryTokens query).isEmpty = true
    · rw [if_pos h2] at h
      exact Or.inl ⟨List.isEmpty_iff.mp h2, (Except.ok.inj h).symm⟩
    · rw [if_neg h2] at h
      cases hexp : searchExpanded store (queryTokens query) topK with
      | error e =>
        rw [hexp] at h
        exact Except.noConfusion h
      | ok expanded =>
        rw [hexp] at h
        exact Or.inr ⟨expanded, rfl, (Except.ok.inj h).symm⟩

theorem searchExpanded_ok_cases (store : DocStore) (queryWords : List String) (topK : Nat)
    (expanded : List (String × SearchResult))
    (h : searchExpanded store queryWords topK = Except.ok expanded) :
    ∃ matching, collectMatches store queryWords = Except.ok matching
      ∧ expanded = ((sortScoreDesc MatchingChunk.score matching).take
            (min topK matching.length)).filterMap (expandMatch store) := by
  unfold searchExpanded searchSeeds at h
  cases hcm : collectMatches store queryWords with
  | error e =>
    rw [hcm] at h
    exact Except.noConfusion h
  | ok matching =>
    rw [hcm] at h
    exact ⟨matching, rfl, (Except.ok.inj h).symm⟩

/-! ## Claim theorems -/

/-- Claim C1 (code bug): the spec says `search` never throws, but the
source interpolates raw query tokens into `new RegExp('\\b' + word +
'\\w*', 'gi')`, which throws a `SyntaxError` on a metacharacter token such
as `"(see"` whenever at least one chunk is scanned.  The second conjunct
verifies the part of the claim the code does satisfy: an empty Document
Store always yields the empty sequence (no regex is ever built). -/
theorem searchDocuments_throws_on_metachar_token :
    searchDocuments [("doc1", [⟨"doc1", "guide.pdf", 0, "hello world"⟩])] "(see" 5
        = Except.error regexSyntaxError
    ∧ ∀ (query : String) (topK : Nat), searchDocuments [] query topK = Except.ok [] := by
  constructor
  · rfl
  · intro query topK
    exact searchDocuments_of_no_matches [] query topK rfl

/-- Counterexample to claim C3 as stated: the query token "don\u0027t"
(length 5 > 2 after lowercasing) compiles — the apostrophe is a literal in
a JS pattern — and on the chunk "don\u0027t worry" the regex
`/\bdon\u0027t\w*/gi` matches once, so the chunk scores 1; but no
`\w`-delimited word of the chunk begins with the token (its words are
"don", "t", "worry"), so the claimed count of words beginning with the
token is 0.  The score is regex-match counting, not word-prefix counting,
for such tokens. -/
theorem scoreChunk_prefix_matching_counterexample :
    scoreChunk (queryTokens "don\u0027t") chunkApos = Except.ok 1
    ∧ ((queryTokens "don\u0027t").map
        (fun t => prefixWordOccurrences t chunkApos.text)).sum = 0
    ∧ scoreChunk (queryTokens "don\u0027t") chunkApos
        ≠ Except.ok (((queryTokens "don\u0027t").map
            (fun t => prefixWordOccurrences t chunkApos.text)).sum) :=
  ⟨rfl, rfl, by decide⟩

/-- Claim C3 (amended): for query tokens consisting only of `\w`
characters, a chunk's score is the sum over the tokens of the number of
case-insensitive occurrences of a word of the chunk beginning with that
token (prefix match); consequently the query "deploy" retrieves a chunk
whose whole text is the single word "deployment".  (A token containing
other characters is matched with JS regex semantics instead — see the
counterexample — or throws, see C1.) -/
theorem scoreChunk_prefix_matching :
    (∀ (query : String) (chunk : Chunk),
        (∀ w ∈ queryTokens query, wordCharToken w = true) →
        scoreChunk (queryTokens query) chunk =
          Except.ok (((queryTokens query).map
            (fun t => prefixWordOccurrences t chunk.text)).sum))
    ∧ searchDocuments deployStore "deploy" 5
        = Except.ok [⟨"Deployment Guide.pdf", "deployment", 1⟩] := by
  constructor
  · intro query chunk h
    exact scoreChunk_ok_of_compiles (queryTokens query) chunk h
  · rfl

/-- Witness for C3 at the concrete query "deploy" and the chunk whose text
is "deployment". -/
theorem scoreChunk_prefix_matching_witness :
    (∀ w ∈ queryTokens "deploy", wordCharToken w = true)
    ∧ scoreChunk (queryTokens "deploy") chunkC3 =
        Except.ok (((queryTokens "deploy").map
          (fun t => prefixWordOccurrences t chunkC3.text)).sum) :=
  ⟨by decide, scoreChunk_prefix_matching.1 "deploy" chunkC3 (by decide)⟩

/-- Claim C4: whenever `search` returns a result sequence, its length is at
most `topK` and its scores are non-increasing in result order. -/
theorem searchDocuments_length_le_topK_and_sorted (store : DocStore) (query : String)
    (topK : Nat) (results : List SearchResult)
    (h : searchDocuments store query topK = Except.ok results) :
    results.length ≤ topK ∧ results.Pairwise (fun a b => b.score ≤ a.score) := by
  rcases searchDocuments_ok_cases store query topK results h with ⟨-, rfl⟩ | ⟨expanded, hexp, rfl⟩
  · exact ⟨Nat.zero_le _, List.Pairwise.nil⟩
  · constructor
    · exact List.length_take_le _ _
    · exact List.Pairwise.sublist (List.take_sublist _ _)
        (sortScoreDesc_pairwise SearchResult.score _)

/-- Witness for C4: `topK = 1` against two matching documents returns
exactly the single higher-scoring result. -/
theorem searchDocuments_length_le_topK_and_sorted_witness :
    searchDocuments storeC4 "error" 1 = Except.ok [⟨"a.pdf", "error error", 2⟩]
    ∧ ([(⟨"a.pdf", "error error", 2⟩ : SearchResult)].length ≤ 1
        ∧ [(⟨"a.pdf", "error error", 2⟩ : SearchResult)].Pairwise
            (fun a b => b.score ≤ a.score)) :=
  ⟨rfl, searchDocuments_length_le_topK_and_sorted storeC4 "error" 1 _ rfl⟩

/-- Claim C5: with an empty `relevantDocs` list the system prompt contains,
verbatim, the mandated literal fallback sentence — for both the present and
the absent `captureContext` argument. -/
theorem buildSystemPrompt_empty_docs_fallback (captureContext : Option CaptureContext) :
    ∃ pre post : String,
      buildSystemPrompt [] captureContext = pre ++ mandatedNoInfoSentence ++ post := by
  refine ⟨baseRules ++ contextSection captureContext
      ++ "\n\nNo relevant documentation found. Say EXACTLY: \"", "\"", ?_⟩
  unfold buildSystemPrompt docsSection
  simp only [List.length_nil, gt_iff_lt, Nat.lt_irrefl, if_false]
  simp only [string_append_assoc]

/-- Claim C6: a response containing a generic-advice phrase and no citation
marker, and not accepted by the no-information rule, is flagged invalid
with a warning. -/
theorem validateAIResponse_generic_unsourced (response : String)
    (relevantDocs : List SearchResult)
    (hgen : genericPhrases.any (fun p => jsIncludes (jsToLowerCase response) p) = true)
    (hsrc : jsIncludes (jsToLowerCase response) "[source:" = false)
    (hfrom : jsIncludes (jsToLowerCase response) "[from " = false)
    (hnotrule1 : ¬(noInfoPhrases.any (fun p => jsIncludes (jsToLowerCase response) p) = true
        ∧ relevantDocs = [])) :
    validateAIResponse response relevantDocs = ⟨false, some genericWarning⟩ := by
  have h1 : (noInfoPhrases.any (fun p => jsIncludes (jsToLowerCase response) p)
      && relevantDocs.length == 0) = false := by
    cases hn : noInfoPhrases.any (fun p => jsIncludes (jsToLowerCase response) p) with
    | false => rfl
    | true =>
      cases relevantDocs with
      | nil => exact absurd ⟨hn, rfl⟩ hnotrule1
      | cons d ds => rfl
  simp only [validateAIResponse]
  rw [h1]
  simp only [Bool.false_eq_true, if_false]
  rw [hgen, hsrc, hfrom]
  simp

/-- Witness for C6: "You should typically restart the app" with no
citation and an empty docs list. -/
theorem validateAIResponse_generic_unsourced_witness :
    (genericPhrases.any
        (fun p => jsIncludes (jsToLowerCase "You should typically restart the app") p) = true)
    ∧ validateAIResponse "You should typically restart the app" []
        = ⟨false, some genericWarning⟩ :=
  ⟨by decide,
   validateAIResponse_generic_unsourced "You should typically restart the app" []
     (by decide) (by decide) (by decide) (by decide)⟩

/-- Claim C9: the validator returns `isValid = false` only together with a
nonempty warning string, and `isValid = true` always with no warning. -/
theorem validateAIResponse_warning_discipline (response : String)
    (relevantDocs : List SearchResult) :
    ((validateAIResponse response relevantDocs).isValid = true
        ∧ (validateAIResponse response relevantDocs).warning = none)
    ∨ ((validateAIResponse response relevantDocs).isValid = false
        ∧ ∃ w, (validateAIResponse response relevantDocs).warning = some w ∧ 0 < w.length) := by
  simp only [validateAIResponse]
  split
  · exact Or.inl ⟨rfl, rfl⟩
  · split
    · exact Or.inr ⟨rfl, genericWarning, rfl, by decide⟩
    · split
      · exact Or.inr ⟨rfl, incompleteWarning, rfl, by decide⟩
      · exact Or.inl ⟨rfl, rfl⟩

/-- Claim C2: under a well-formed store, every returned search result's
text is the newline-joined concatenation of the chunks at indices `i-1`
(if it exists), `i`, and `i+1` (if it exists) of its seed's document, in
index order (`specNeighborText`). -/
theorem searchDocuments_neighbor_expansion (store : DocStore) (query : String) (topK : Nat)
    (results : List SearchResult) (r : SearchResult)
    (hwf : wfStore store = true)
    (hok : searchDocuments store query topK = Except.ok results)
    (hr : r ∈ results) :
    ∃ (docId : String) (docChunks : List Chunk) (i : Nat),
      storeLookup store docId = some docChunks ∧ i < docChunks.length ∧
      r.text = specNeighborText docChunks i := by
  rcases searchDocuments_ok_cases store query topK results hok with ⟨-, rfl⟩ | ⟨expanded, hexp, rfl⟩
  · exact absurd hr (List.not_mem_nil r)
  · have hr0 : r ∈ sortScoreDesc SearchResult.score ((dedupByKey expanded).map Prod.snd) :=
      List.Sublist.mem hr (List.take_sublist _ _)
    have hr1 : r ∈ (dedupByKey expanded).map Prod.snd :=
      (sortScoreDesc_perm SearchResult.score _).mem_iff.mp hr0
    rcases List.mem_map.mp hr1 with ⟨kv, hkv_dedup, rfl⟩
    have hkv_exp : kv ∈ expanded := by
      rcases dedupFold_mem expanded [] kv hkv_dedup with hnil | hmem
      · exact absurd hnil (List.not_mem_nil kv)
      · exact hmem
    rcases searchExpanded_ok_cases store (queryTokens query) topK expanded hexp
      with ⟨matching, hcm, heq⟩
    rw [heq] at hkv_exp
    rcases List.mem_filterMap.mp hkv_exp with ⟨m, hm_seeds, hm_exp⟩
    have hm_matching : m ∈ matching :=
      (sortScoreDesc_perm MatchingChunk.score matching).mem_iff.mp
        (List.Sublist.mem hm_seeds (List.take_sublist _ _))
    rcases collectMatches_mem store (queryTokens query) matching hcm m hm_matching
      with ⟨e, he_store, c, hc_mem, hm_eq, hscore, hpos⟩
    rcases Bool.and_eq_true_iff.mp hwf with ⟨hkeys, hall⟩
    have hidx : indexedFromB 0 e.2 = true := List.all_eq_true.mp hall e he_store
    have hlookup : storeLookup store e.1 = some e.2 := storeLookup_self store hkeys e he_store
    have hclen : c.chunkIndex < e.2.length := by
      have := indexedFromB_mem e.2 0 hidx c hc_mem
      omega
    have hmdocid : m.docId = e.1 := by rw [hm_eq]
    have hmidx : m.chunkIndex = c.chunkIndex := by rw [hm_eq]
    have hlookupm : storeLookup store m.docId = some e.2 := by rw [hmdocid]; exact hlookup
    have hmlt : m.chunkIndex < e.2.length := by rw [hmidx]; exact hclen
    have hexp_eq := expandMatch_wf store m e.2 hlookupm hidx hmlt
    rw [hexp_eq] at hm_exp
    have hkv_eq := Option.some.inj hm_exp
    refine ⟨e.1, e.2, m.chunkIndex, hlookup, hmlt, ?_⟩
    rw [← hkv_eq]

/-- Witness for C2: a three-chunk document where only the middle chunk
matches — the returned text includes the chunk before and after it. -/
theorem searchDocuments_neighbor_expansion_witness :
    wfStore storeC2 = true
    ∧ searchDocuments storeC2 "needle" 5 = Except.ok [resultC2]
    ∧ resultC2 ∈ [resultC2]
    ∧ ∃ (docId : String) (docChunks : List Chunk) (i : Nat),
        storeLookup storeC2 docId = some docChunks ∧ i < docChunks.length ∧
        resultC2.text = specNeighborText docChunks i :=
  ⟨rfl, rfl, List.mem_singleton.mpr rfl,
   searchDocuments_neighbor_expansion storeC2 "needle" 5 [resultC2] resultC2 rfl rfl
     (List.mem_singleton.mpr rfl)⟩

/-! ## Deduplication keeps one maximal-score result per range (C10) -/

theorem expandMatch_score (store : DocStore) (m : MatchingChunk) (kv : String × SearchResult)
    (h : expandMatch store m = some kv) : kv.2.score = m.score := by
  unfold expandMatch at h
  cases hl : storeLookup store m.docId with
  | none => rw [hl] at h; exact Option.noConfusion h
  | some docChunks =>
    rw [hl] at h
    dsimp only at h
    have := Option.some.inj h
    rw [← this]

theorem filterMap_expand_pairwise (store : DocStore) :
    ∀ (l : List MatchingChunk), l.Pairwise (fun x y => y.score ≤ x.score) →
      (l.filterMap (expandMatch store)).Pairwise (fun p q => q.2.score ≤ p.2.score) := by
  intro l
  induction l with
  | nil => intro _; simp
  | cons m l ih =>
    intro h
    rcases List.pairwise_cons.mp h with ⟨hm, hl⟩
    rw [List.filterMap_cons]
    cases he : expandMatch store m with
    | none => exact ih hl
    | some kv =>
      apply List.pairwise_cons.mpr
      refine ⟨?_, ih hl⟩
      intro q hq
      rcases List.mem_filterMap.mp hq with ⟨m2, hm2, he2⟩
      rw [expandMatch_score store m2 q he2, expandMatch_score store m kv he]
      exact hm m2 hm2

theorem searchExpanded_sorted (store : DocStore) (queryWords : List String) (topK : Nat)
    (expanded : List (String × SearchResult))
    (h : searchExpanded store queryWords topK = Except.ok expanded) :
    expanded.Pairwise (fun p q => q.2.score ≤ p.2.score) := by
  rcases searchExpanded_ok_cases store queryWords topK expanded h with ⟨matching, hcm, rfl⟩
  exact filterMap_expand_pairwise store _
    (List.Pairwise.sublist (List.take_sublist _ _) (sortScoreDesc_pairwise MatchingChunk.score _))

theorem searchExpanded_length (store : DocStore) (queryWords : List String) (topK : Nat)
    (expanded : List (String × SearchResult))
    (h : searchExpanded store queryWords topK = Except.ok expanded) :
    expanded.length ≤ topK := by
  rcases searchExpanded_ok_cases store queryWords topK expanded h with ⟨matching, hcm, rfl⟩
  have h1 := List.length_filterMap_le (expandMatch store)
    ((sortScoreDesc MatchingChunk.score matching).take (min topK matching.length))
  have h2 := List.length_take_le (min topK matching.length)
    (sortScoreDesc MatchingChunk.score matching)
  have h3 := Nat.min_le_left topK matching.length
  omega

theorem collectMatches_no_tokens (store : DocStore) :
    collectMatches store [] = Except.ok [] :=
  collectMatches_all_zero store [] (fun _ _ _ _ => rfl)

/-- Claim C10: when several seed matches expand to the identical
`(startIndex, endIndex)` range of the same document — the same
deduplication key — exactly one result is kept for that range; it is one
of the coinciding entries, it carries the maximum of their scores (the
seeds are visited in descending score order and the first one per key is
kept), and it survives to the final returned sequence. -/
theorem searchDocuments_dedup_range (store : DocStore) (query : String) (topK : Nat)
    (expanded : List (String × SearchResult)) (results : List SearchResult) (k : String)
    (hexp : searchExpanded store (queryTokens query) topK = Except.ok expanded)
    (hok : searchDocuments store query topK = Except.ok results)
    (hdup : 2 ≤ (expanded.filter (fun p => p.1 == k)).length) :
    ∃ kv, (dedupByKey expanded).filter (fun p => p.1 == k) = [kv]
      ∧ kv ∈ expanded.filter (fun p => p.1 == k)
      ∧ (∀ q ∈ expanded, q.1 = k → q.2.score ≤ kv.2.score)
      ∧ kv.2 ∈ results := by
  have hfilter := dedupByKey_filter k expanded
  have hsome : ∃ kv, expanded.find? (fun p => p.1 == k) = some kv := by
    cases hf : expanded.find? (fun p => p.1 == k) with
    | some kv => exact ⟨kv, rfl⟩
    | none =>
      exfalso
      have hnone := List.find?_eq_none.mp hf
      have hnil : expanded.filter (fun p => p.1 == k) = [] :=
        List.filter_eq_nil_iff.mpr hnone
      rw [hnil] at hdup
      simp at hdup
  rcases hsome with ⟨kv, hfind⟩
  have hkvpred := List.find?_some hfind
  refine ⟨kv, ?_, ?_, ?_, ?_⟩
  · rw [hfilter, hfind]
    rfl
  · exact List.mem_filter.mpr ⟨List.mem_of_find?_eq_some hfind, hkvpred⟩
  · intro q hq hqk
    have hsorted := searchExpanded_sorted store (queryTokens query) topK expanded hexp
    refine find?_score_max (fun p => p.1 == k) expanded hsorted kv hfind q hq ?_
    show (q.1 == k) = true
    rw [hqk]
    exact beq_self_eq_true _
  · have hkvded : kv ∈ dedupByKey expanded := by
      have hm : kv ∈ (dedupByKey expanded).filter (fun p => p.1 == k) := by
        rw [hfilter, hfind]
        exact List.mem_singleton.mpr rfl
      exact List.mem_of_mem_filter hm
    have hlen : (sortScoreDesc SearchResult.score ((dedupByKey expanded).map Prod.snd)).length
        ≤ topK := by
      rw [(sortScoreDesc_perm SearchResult.score _).length_eq, List.length_map]
      have h1 : (dedupByKey expanded).length ≤ expanded.length := by
        have := dedupFold_length expanded []
        simpa [dedupByKey] using this
      have h2 := searchExpanded_length store (queryTokens query) topK expanded hexp
      omega
    rcases searchDocuments_ok_cases store query topK results hok
      with ⟨htok, rfl⟩ | ⟨expanded2, hexp2, rfl⟩
    · exfalso
      rw [htok] at hexp
      rw [searchExpanded_of_no_matches store [] topK (collectMatches_no_tokens store)] at hexp
      have : ([] : List (String × SearchResult)) = expanded := Except.ok.inj hexp
      rw [← this] at hdup
      simp at hdup
    · have hsame : expanded2 = expanded := by
        rw [hexp] at hexp2
        exact Except.ok.inj hexp2.symm
      subst hsame
      rw [List.take_of_length_le hlen]
      exact (sortScoreDesc_perm SearchResult.score _).mem_iff.mpr
        (List.mem_map_of_mem Prod.snd hkvded)

/-- Witness for C10 at a store where two seeds share the range `0-1`: one
result is kept and it carries the larger score. -/
theorem searchDocuments_dedup_range_witness :
    searchExpanded storeC10 (queryTokens "needle") 5 = Except.ok expandedC10
    ∧ searchDocuments storeC10 "needle" 5
        = Except.ok [⟨"notes.pdf", "needle needle\nneedle extra", 2⟩]
    ∧ 2 ≤ (expandedC10.filter (fun p => p.1 == "d-0-1")).length
    ∧ ∃ kv, (dedupByKey expandedC10).filter (fun p => p.1 == "d-0-1") = [kv]
        ∧ kv ∈ expandedC10.filter (fun p => p.1 == "d-0-1")
        ∧ (∀ q ∈ expandedC10, q.1 = "d-0-1" → q.2.score ≤ kv.2.score)
        ∧ kv.2 ∈ [(⟨"notes.pdf", "needle needle\nneedle extra", 2⟩ : SearchResult)] :=
  ⟨rfl, rfl, by decide,
   searchDocuments_dedup_range storeC10 "needle" 5 expandedC10 _ "d-0-1" rfl rfl (by decide)⟩

/-- Counterexample to claim C7 as stated: when the completion oracle throws
during capture-solve, the handler's returned structured result has
`success = true` — `generateSolution` catches the error internally and
returns the message as the solution text — not `success = false` as the
claim requires for every oracle throw. -/
theorem captureSolve_completion_error_success_true :
    (captureSolve readyAI storeC7 (Except.ok "hello") (Except.error "model crashed")).1.success
      = true := rfl

/-- Claim C7 (amended): each oracle call is attempted exactly once with no
retry, and a throw is surfaced as follows: an OCR throw during
capture-solve and a completion throw during chat follow-up yield
`success = false` with the error message (and no completion attempt after
a failed OCR); a completion throw during capture-solve is caught inside
`generateSolution` — still attempted exactly once — and yields
`success = true` with the human-readable error embedded as the solution
text. -/
theorem oracle_failure_single_attempt (e : String) :
    (∀ (ai : AIState) (store : DocStore) (completionOutcome : Except String String),
        captureSolve ai store (Except.error e) completionOutcome
          = (⟨false, none, [], none, some e⟩, [OracleCall.ocr]))
    ∧ chatFollowup readyAI storeC7 reqC7 (Except.error e) (Except.ok "t")
        = (⟨false, none, none, some e⟩, [OracleCall.completion])
    ∧ captureSolve readyAI storeC7 (Except.ok "hello") (Except.error e)
        = (⟨true, some "hello", docsC7, some ("Error generating solution: " ++ e), none⟩,
           [OracleCall.ocr, OracleCall.completion]) :=
  ⟨fun _ _ _ => rfl, rfl, rfl⟩

/-! ## Deletion removes a document from search (C8) -/

/-- Claim C8: after a successful `deleteDocument(docId)`, a query that
scored `0` on every chunk of every other document — one that matched only
the deleted document's content — returns the empty sequence. -/
theorem deleteDocument_removes_from_search (meta : List (String × DocMetadata))
    (store : DocStore) (docId : String) (unlinkOutcome : Except String Unit)
    (delMeta : List (String × DocMetadata)) (delStore : DocStore) (query : String) (topK : Nat)
    (hdel : deleteDocument meta store docId unlinkOutcome = Except.ok (delMeta, delStore))
    (honly : ∀ e ∈ store, e.1 ≠ docId →
        ∀ c ∈ e.2, scoreChunk (queryTokens query) c = Except.ok 0) :
    searchDocuments delStore query topK = Except.ok [] := by
  have hstore : delStore = store.filter (fun e => !(e.1 == docId)) := by
    unfold deleteDocument at hdel
    cases hml : metaLookup meta docId with
    | none =>
      rw [hml] at hdel
      exact Except.noConfusion hdel
    | some d =>
      rw [hml] at hdel
      cases unlinkOutcome with
      | error err => exact Except.noConfusion hdel
      | ok u =>
        have hpair := Except.ok.inj hdel
        exact (congrArg Prod.snd hpair).symm
  subst hstore
  apply searchDocuments_of_no_matches
  apply collectMatches_all_zero
  intro e he c hc
  have hmem := List.mem_filter.mp he
  have hne : e.1 ≠ docId := by
    intro heq
    have hb := hmem.2
    rw [heq] at hb
    simp at hb
  exact honly e hmem.1 hne c hc

/-- Witness for C8: deleting the only document matching "needle" makes the
search come back empty. -/
theorem deleteDocument_removes_from_search_witness :
    deleteDocument metaC8 storeC8 "d1" (Except.ok ())
        = Except.ok ([], [("d2", [⟨"d2", "b.pdf", 0, "other stuff"⟩])])
    ∧ (∀ e ∈ storeC8, e.1 ≠ "d1" →
        ∀ c ∈ e.2, scoreChunk (queryTokens "needle") c = Except.ok 0)
    ∧ searchDocuments [("d2", [⟨"d2", "b.pdf", 0, "other stuff"⟩])] "needle" 5 = Except.ok [] :=
  ⟨rfl, by decide,
   deleteDocument_removes_from_search metaC8 storeC8 "d1" (Except.ok ()) []
     [("d2", [⟨"d2", "b.pdf", 0, "other stuff"⟩])] "needle" 5 rfl (by decide)⟩

end SnipSolve
